import Mathlib

/-!
Verification of the lrucache Go library.

This file gives a shallow embedding of the cache data structures and the
operations of `event.go` / `internal.go`, and proves theorems checking the
specification's claims against them.  Node pointers become node ids resolved
through a heap function; `time.Time` instants become `Option Nat` (with `none`
for the zero time); uint64 arithmetic is `Nat` with explicit reduction modulo
`2 ^ 64`.  The single-consumer event loop is modelled by applying each awaited
event inline, in submission order, which is the sequential semantics of the
Go code.
-/

set_option maxHeartbeats 1000000
set_option linter.unusedSectionVars false
set_option linter.unusedVariables false

namespace LruCache

/-- Modulus for 64-bit unsigned arithmetic, matching Go's uint64. -/
def U64 : Nat := 18446744073709551616

/-- Wrap-around subtraction of uint64 values (Go `a - b`). -/
def u64sub (a b : Nat) : Nat := (a + (U64 - b % U64)) % U64

/-- Wrap-around addition of uint64 values (Go `a + b`). -/
def u64add (a b : Nat) : Nat := (a + b) % U64

/-- The `node` struct from event.go: one cache entry with its intrusive list
links.  `expires = none` models Go's zero `time.Time` (no expiry). -/
structure Node (K V : Type) where
  expires : Option Nat
  size : Nat
  previous : Option Nat
  next : Option Nat
  key : K
  value : V
  deleted : Bool

instance {K V : Type} [Inhabited K] [Inhabited V] : Inhabited (Node K V) :=
  ⟨⟨none, 0, none, none, default, default, false⟩⟩

/-- Id of the head sentinel node allocated by `NewCacheWithBufferAndInterval`. -/
def headId : Nat := 0

/-- Id of the tail sentinel node allocated by `NewCacheWithBufferAndInterval`. -/
def tailId : Nat := 1

/-- The `Cache` struct from event.go.  `index` models the Go map `cache`;
`heap` resolves node ids to node contents; `nextId` is the allocator for fresh
node ids; `pool` models the `sync.Pool` of the pooling processor variant. -/
structure CacheState (K V : Type) where
  size : Nat
  capacity : Nat
  index : List (K × Nat)
  heap : Nat → Node K V
  nextId : Nat
  pool : List Nat

section Ops

variable {K V : Type} [DecidableEq K] [Inhabited K] [Inhabited V]

/-- Go map lookup `cache[k]`. -/
def idxLookup (l : List (K × Nat)) (k : K) : Option Nat :=
  (l.find? (fun p => decide (p.1 = k))).map (·.2)

/-- Go map deletion `delete(cache, k)`. -/
def idxDelete (l : List (K × Nat)) (k : K) : List (K × Nat) :=
  l.filter (fun p => decide (¬p.1 = k))

/-- Go map assignment `cache[k] = n`. -/
def idxInsert (l : List (K × Nat)) (k : K) (n : Nat) : List (K × Nat) :=
  (k, n) :: idxDelete l k

/-- Write a whole node at id `i` (allocation / in-place overwrite). -/
def writeNode (h : Nat → Node K V) (i : Nat) (nd : Node K V) : Nat → Node K V :=
  fun j => if j = i then nd else h j

/-- Assignment to the `next` field of node `i`. -/
def setNextF (h : Nat → Node K V) (i : Nat) (v : Option Nat) : Nat → Node K V :=
  fun j => if j = i then { h j with next := v } else h j

/-- Assignment to the `previous` field of node `i`. -/
def setPrevF (h : Nat → Node K V) (i : Nat) (v : Option Nat) : Nat → Node K V :=
  fun j => if j = i then { h j with previous := v } else h j

/-- Assignment to the `deleted` field of node `i` (`flagAsDeleted`). -/
def setDeletedF (h : Nat → Node K V) (i : Nat) (b : Bool) : Nat → Node K V :=
  fun j => if j = i then { h j with deleted := b } else h j

/-- `NewCacheWithBufferAndInterval` (event.go).  The buffer depth and purge
interval do not change the sequential state; the two sentinel nodes get ids
`headId` and `tailId`, linked to each other. -/
def newCache (capacity : Nat) : CacheState K V :=
  { size := 0
    capacity := capacity % U64
    index := []
    heap := fun i =>
      if i = headId then { (default : Node K V) with next := some tailId }
      else if i = tailId then { (default : Node K V) with previous := some headId }
      else default
    nextId := 2
    pool := [] }

/-- `removeNodeFromList` (internal.go): a no-op when either link is nil,
otherwise bypass the node (its own links are left stale, as in Go). -/
def removeNodeFromList (st : CacheState K V) (n : Nat) : CacheState K V :=
  match (st.heap n).previous, (st.heap n).next with
  | some p, some nx => { st with heap := setPrevF (setNextF st.heap p (some nx)) nx (some p) }
  | _, _ => st

/-- The heap effect of `addNodeBetween` (internal.go): its four field writes,
in program order. -/
def addBetweenHeap (h : Nat → Node K V) (n p nx : Nat) : Nat → Node K V :=
  let h1 := setNextF h p (some n)
  let h2 := setPrevF h1 nx (some n)
  let h3 := setPrevF h2 n (some p)
  setNextF h3 n (some nx)

/-- `addNodeBetween` (internal.go), with its four field writes in order. -/
def addNodeBetween (st : CacheState K V) (n p nx : Nat) : CacheState K V :=
  { st with heap := addBetweenHeap st.heap n p nx }

/-- `addNodeToHead` (internal.go): detach first if linked, then insert between
`head` and `head.next`.  A nil `head.next` would be a nil dereference in Go,
modelled by `none`. -/
def addNodeToHead (st : CacheState K V) (n : Nat) : Option (CacheState K V) :=
  let st1 := if (st.heap n).previous.isSome then removeNodeFromList st n else st
  match (st1.heap headId).next with
  | some nx => some (addNodeBetween st1 n headId nx)
  | none => none

/-- `removeNodeFromTail` (internal.go): unlink and return `tail.previous`.
A nil `tail.previous` would be a nil dereference in Go, modelled by `none`. -/
def removeNodeFromTail (st : CacheState K V) : Option (CacheState K V × Nat) :=
  match (st.heap tailId).previous with
  | none => none
  | some last => some (removeNodeFromList st last, last)

/-- The `EventActionRemove` branch of `processEvents` (internal.go): remove
from the index by the node's key, unlink, subtract the cost, tombstone. -/
def applyRemove (st : CacheState K V) (n : Nat) : CacheState K V :=
  let st1 := removeNodeFromList { st with index := idxDelete st.index (st.heap n).key } n
  { st1 with
    size := u64sub st1.size (st1.heap n).size
    heap := setDeletedF st1.heap n true }

/-- The `EventActionAddToFront` branch of `processEvents` (internal.go): a
tombstoned node is not relinked. -/
def applyAddToFront (st : CacheState K V) (n : Nat) : Option (CacheState K V) :=
  if (st.heap n).deleted then some st else addNodeToHead st n

/-- One iteration of the `EventActionMakeSpaceFor` loop body (internal.go). -/
def evictOnce (st : CacheState K V) : Option (CacheState K V) :=
  (removeNodeFromTail st).map (fun r =>
    { r.1 with
      index := idxDelete r.1.index (r.1.heap r.2).key
      size := u64sub r.1.size (r.1.heap r.2).size
      heap := setDeletedF r.1.heap r.2 true })

/-- The `EventActionMakeSpaceFor` loop (internal.go).  `fuel` bounds the number
of evictions; `none` models a loop that does not terminate within the fuel.
The incoming node's size is re-read from the heap each iteration, as the Go
loop re-reads `e.n.size`. -/
def makeSpaceLoop : Nat → CacheState K V → Nat → Option (CacheState K V)
  | 0, st, n =>
    if u64sub st.capacity st.size < (st.heap n).size then none else some st
  | fuel + 1, st, n =>
    if u64sub st.capacity st.size < (st.heap n).size then
      (evictOnce st).bind (fun st1 => makeSpaceLoop fuel st1 n)
    else some st

/-- Go `!n.expires.IsZero() && n.expires.Before(now)`. -/
def nodeExpired (nd : Node K V) (now : Nat) : Bool :=
  match nd.expires with
  | some e => decide (e < now)
  | none => false

/-- One entry of the `EventActionRemoveExpired` scan (internal.go). -/
def purgeStep (now : Nat) (st : CacheState K V) (p : K × Nat) : CacheState K V :=
  if nodeExpired (st.heap p.2) now then applyRemove st p.2 else st

/-- The `EventActionRemoveExpired` branch (internal.go): scan the live index
entries, removing each expired one; `now` is read once before the scan. -/
def applyRemoveExpired (st : CacheState K V) (now : Nat) : CacheState K V :=
  st.index.foldl (purgeStep now) st

/-- The four event kinds of event.go. -/
inductive CacheEvent where
  | addToFront (n : Nat)
  | remove (n : Nat)
  | makeSpaceFor (n : Nat)
  | removeExpired

/-- One step of `processEvents` from internal.go (the tombstone-based
processor). -/
def processEvent (fuel : Nat) (st : CacheState K V) (now : Nat) :
    CacheEvent → Option (CacheState K V)
  | .addToFront n => applyAddToFront st n
  | .remove n => some (applyRemove st n)
  | .makeSpaceFor n => makeSpaceLoop fuel st n
  | .removeExpired => some (applyRemoveExpired st now)

/-- `returnToPool` from the superseded pooling processor variant: reset the
node's key, value and links and put its id in the pool. -/
def returnToPool (st : CacheState K V) (n : Nat) : CacheState K V :=
  { st with
    heap := writeNode st.heap n
      { st.heap n with key := default, value := default, previous := none, next := none }
    pool := st.pool ++ [n] }

/-- The `EventActionRemove` branch of the pooling processor variant. -/
def applyRemovePool (st : CacheState K V) (n : Nat) : CacheState K V :=
  let st1 := removeNodeFromList { st with index := idxDelete st.index (st.heap n).key } n
  returnToPool { st1 with size := u64sub st1.size (st1.heap n).size } n

/-- One iteration of the `EventActionMakeSpaceFor` loop body of the pooling
processor variant. -/
def evictOncePool (st : CacheState K V) : Option (CacheState K V) :=
  (removeNodeFromTail st).map (fun r =>
    returnToPool
      { r.1 with
        index := idxDelete r.1.index (r.1.heap r.2).key
        size := u64sub r.1.size (r.1.heap r.2).size } r.2)

/-- The `EventActionMakeSpaceFor` loop of the pooling processor variant. -/
def makeSpaceLoopPool : Nat → CacheState K V → Nat → Option (CacheState K V)
  | 0, st, n =>
    if u64sub st.capacity st.size < (st.heap n).size then none else some st
  | fuel + 1, st, n =>
    if u64sub st.capacity st.size < (st.heap n).size then
      (evictOncePool st).bind (fun st1 => makeSpaceLoopPool fuel st1 n)
    else some st

/-- One entry of the `EventActionRemoveExpired` scan of the pooling variant;
unlike internal.go, that source deletes by the map key of the scan. -/
def purgeStepPool (now : Nat) (st : CacheState K V) (p : K × Nat) : CacheState K V :=
  if nodeExpired (st.heap p.2) now then
    let st1 := removeNodeFromList { st with index := idxDelete st.index p.1 } p.2
    returnToPool { st1 with size := u64sub st1.size (st1.heap p.2).size } p.2
  else st

/-- The `EventActionRemoveExpired` branch of the pooling processor variant. -/
def applyRemoveExpiredPool (st : CacheState K V) (now : Nat) : CacheState K V :=
  st.index.foldl (purgeStepPool now) st

/-- One step of `processEvents` from the superseded pooling variant: nodes are
returned to a pool and `AddToFront` has no tombstone check. -/
def processEventPool (fuel : Nat) (st : CacheState K V) (now : Nat) :
    CacheEvent → Option (CacheState K V)
  | .addToFront n => addNodeToHead st n
  | .remove n => some (applyRemovePool st n)
  | .makeSpaceFor n => makeSpaceLoopPool fuel st n
  | .removeExpired => some (applyRemoveExpiredPool st now)

/-- The three validation failures of `SetWithSizeAndExpiry` (errors.go). -/
inductive SetError where
  | itemTooSmall
  | itemTooBig
  | pastExpiry
deriving DecidableEq

/-- `SetWithSizeAndExpiry` (event.go), with the awaited events applied inline
and the trailing `AddToFront` processed immediately (sequential semantics of
the single-consumer event loop).  `pf` models the global
`PurgeExpiredEventsWhenCacheIsFull` flag; `fuel` bounds the `MakeSpaceFor`
loop; `size0` is reduced modulo `2 ^ 64` as a uint64 parameter. -/
def setWithSizeAndExpiry (fuel : Nat) (st : CacheState K V) (k : K) (v : V)
    (size0 : Nat) (expires : Option Nat) (now : Nat) (pf : Bool) :
    Option (Except SetError (CacheState K V)) :=
  let size := size0 % U64
  if size = 0 then some (.error .itemTooSmall)
  else if st.capacity < size then some (.error .itemTooBig)
  else if (match expires with | some e => decide (e < now) | none => false) then
    some (.error .pastExpiry)
  else
    let nid := st.nextId
    let st1 : CacheState K V :=
      { st with
        heap := writeNode st.heap nid
          { expires := expires, size := size, previous := none, next := none,
            key := k, value := v, deleted := false }
        nextId := st.nextId + 1 }
    let st2 := match idxLookup st1.index k with
               | some existing => applyRemove st1 existing
               | none => st1
    let spaced : Option (CacheState K V) :=
      if u64sub st2.capacity st2.size < size then
        let st3 := if pf then applyRemoveExpired st2 now else st2
        makeSpaceLoop fuel st3 nid
      else some st2
    spaced.bind (fun st4 =>
      (applyAddToFront
        { st4 with index := idxInsert st4.index k nid, size := u64add st4.size size }
        nid).map Except.ok)

/-- `Get` (event.go), with the touch event applied inline.  Returns the state
after the touch together with the value and found flag. -/
def getOp (st : CacheState K V) (k : K) (now : Nat) :
    Option (CacheState K V × V × Bool) :=
  match idxLookup st.index k with
  | none => some (st, default, false)
  | some n =>
    if nodeExpired (st.heap n) now then some (st, default, false)
    else (applyAddToFront st n).map (fun st2 => (st2, (st.heap n).value, true))

/-- `Delete` (event.go): if the key is present, issue and await a Remove
event, else do nothing. -/
def deleteOp (st : CacheState K V) (k : K) : CacheState K V :=
  match idxLookup st.index k with
  | some n => applyRemove st n
  | none => st

/-- `EntryCount` (event.go): the number of keys in the index. -/
def entryCount (st : CacheState K V) : Nat := st.index.length

/-- The sum of the costs of the entries currently in the index. -/
def costSum (st : CacheState K V) : Nat :=
  (st.index.map (fun p => (st.heap p.2).size)).sum

/-- A public cache operation, for reasoning about operation sequences. -/
inductive CacheOp (K V : Type) where
  | set (k : K) (v : V) (size : Nat) (expires : Option Nat) (now : Nat)
  | get (k : K) (now : Nat)
  | del (k : K)

/-- Apply one public operation.  A `set` rejected by validation leaves the
state unchanged; `none` records a `MakeSpaceFor` loop that was not given
enough fuel (shown impossible from well-formed states). -/
def applyOp (st : CacheState K V) (pf : Bool) : CacheOp K V → Option (CacheState K V)
  | .set k v sz exp now =>
    match setWithSizeAndExpiry st.index.length st k v sz exp now pf with
    | some (.ok st') => some st'
    | some (.error _) => some st
    | none => none
  | .get k now => (getOp st k now).map (·.1)
  | .del k => some (deleteOp st k)

/-- Run a sequence of public operations. -/
def runOps (st : CacheState K V) (pf : Bool) : List (CacheOp K V) → Option (CacheState K V)
  | [] => some st
  | op :: rest => (applyOp st pf op).bind (fun st' => runOps st' pf rest)

/-- Iterate the eviction step `m` times (for stating that `MakeSpaceFor`
evicts exactly as many tail entries as needed). -/
def evictIter : Nat → CacheState K V → Option (CacheState K V)
  | 0, st => some st
  | m + 1, st => (evictOnce st).bind (evictIter m)

/-- Extract the state of a successful `setWithSizeAndExpiry` result. -/
def okState (o : Option (Except SetError (CacheState K V))) : CacheState K V :=
  match o with
  | some (.ok st) => st
  | _ => newCache 0

/-! ### Named stages of `setWithSizeAndExpiry` (definitionally equal to its
let-bound body, proved below) and the specification-level predicates used to
verify the operations. -/

/-- The node allocation of `SetWithSizeAndExpiry`. -/
def allocNode (st : CacheState K V) (k : K) (v : V) (sz : Nat) (expires : Option Nat) :
    CacheState K V :=
  { st with
    heap := writeNode st.heap st.nextId
      { expires := expires, size := sz, previous := none, next := none,
        key := k, value := v, deleted := false }
    nextId := st.nextId + 1 }

/-- The removal of an existing entry under the same key. -/
def removeOld (st : CacheState K V) (k : K) : CacheState K V :=
  match idxLookup st.index k with
  | some existing => applyRemove st existing
  | none => st

/-- The admission step: optional expiry purge followed by the MakeSpaceFor
loop, skipped entirely when free space suffices. -/
def admitStage (fuel : Nat) (st2 : CacheState K V) (nid sz : Nat) (now : Nat) (pf : Bool) :
    Option (CacheState K V) :=
  if u64sub st2.capacity st2.size < sz then
    makeSpaceLoop fuel (if pf then applyRemoveExpired st2 now else st2) nid
  else some st2

/-- Registration of the new node in the index followed by its touch. -/
def register (st4 : CacheState K V) (k : K) (nid sz : Nat) : Option (CacheState K V) :=
  applyAddToFront { st4 with index := idxInsert st4.index k nid, size := u64add st4.size sz } nid

/-- Mutually consistent linkage between two adjacent nodes. -/
def linkRel (h : Nat → Node K V) (x y : Nat) : Prop :=
  (h x).next = some y ∧ (h y).previous = some x

/-- Non-link node data preserved by pure pointer surgery. -/
def presData (h h' : Nat → Node K V) : Prop :=
  ∀ j, (h' j).key = (h j).key ∧ (h' j).value = (h j).value ∧
    (h' j).size = (h j).size ∧ (h' j).expires = (h j).expires

/-- The cost sum of an index list read through a heap. -/
def listCost (h : Nat → Node K V) (l : List (K × Nat)) : Nat :=
  (l.map (fun p => (h p.2).size)).sum

/-- The full recency chain: head sentinel, live nodes, tail sentinel. -/
def fullChain (L : List Nat) : List Nat := headId :: L ++ [tailId]

/-- Well-formedness of a cache state with respect to a list `L` of live node
ids in recency order (most recent first). -/
structure WF (st : CacheState K V) (L : List Nat) : Prop where
  capLt : st.capacity < U64
  nid2 : 2 ≤ st.nextId
  chainLt : ∀ n ∈ L, n < st.nextId
  chainNodup : L.Nodup
  chainSent : ∀ n ∈ L, n ≠ headId ∧ n ≠ tailId
  headPrev : (st.heap headId).previous = none
  tailNext : (st.heap tailId).next = none
  chain : List.Chain' (linkRel st.heap) (fullChain L)
  keysNodup : (st.index.map Prod.fst).Nodup
  idxMem : ∀ p ∈ st.index, (st.heap p.2).key = p.1 ∧ (st.heap p.2).deleted = false ∧
    1 ≤ (st.heap p.2).size ∧ (st.heap p.2).size < U64 ∧ p.2 ∈ L
  memIdx : ∀ n ∈ L, ∃ k, (k, n) ∈ st.index
  sizeEq : st.size = costSum st
  sizeLe : st.size ≤ st.capacity

/-- Frame facts holding across the removal-flavoured steps (Remove event,
MakeSpaceFor evictions, RemoveExpired purge): only nodes of the old chain `L`
are touched, the index only shrinks, node data is preserved. -/
structure StepFacts (L : List Nat) (st st' : CacheState K V) : Prop where
  cap : st'.capacity = st.capacity
  nid : st'.nextId = st.nextId
  sub : st'.index.Sublist st.index
  data : presData st.heap st'.heap
  del : ∀ j, j ∉ L → (st'.heap j).deleted = (st.heap j).deleted
  links : ∀ j, j ∉ fullChain L →
    (st'.heap j).previous = (st.heap j).previous ∧ (st'.heap j).next = (st.heap j).next

end Ops

/-! ### Concrete instances used by the specification's scenarios -/

/-- The spec scenario: capacity 10, cost 1 each, insert keys 1..100. -/
def scenarioOps : List (CacheOp Nat Nat) :=
  (List.range 100).map (fun i => .set (i + 1) (i + 1) 1 none 0)

/-- Final state of the 100-insert scenario. -/
def scenarioFinal : Option (CacheState Nat Nat) :=
  runOps (newCache 10) false scenarioOps

/-- A small operation sequence exercising set, get and delete. -/
def c2Ops : List (CacheOp Nat Nat) :=
  [.set 1 11 2 none 0, .set 2 22 1 none 0, .get 1 0, .del 2, .set 1 33 1 none 0]

/-- State reached by `c2Ops` from an empty cache of capacity 3. -/
def c2State : CacheState Nat Nat :=
  (runOps (newCache 3) false c2Ops).getD (newCache 0)

/-- A cache of capacity 10 holding one entry (key 1, node id 2, cost 1). -/
def c9Base : CacheState Nat Nat :=
  okState (setWithSizeAndExpiry 0 (newCache 10) 1 7 1 none 0 false)

/-- Result of processing Remove(2) then AddToFront(2) with the tombstone-based
processor of internal.go. -/
def c9Tomb : CacheState Nat Nat :=
  ((processEvent 0 c9Base 0 (.remove 2)).bind
    (fun s => processEvent 0 s 0 (.addToFront 2))).getD (newCache 0)

/-- Result of processing Remove(2) then AddToFront(2) with the superseded
pooling-based processor. -/
def c9Pool : CacheState Nat Nat :=
  ((processEventPool 0 c9Base 0 (.remove 2)).bind
    (fun s => processEventPool 0 s 0 (.addToFront 2))).getD (newCache 0)

/-- A cache with one entry whose expiry instant 5 is already past at time 10. -/
def c7Base : CacheState Nat Nat :=
  okState (setWithSizeAndExpiry 0 (newCache 10) 1 7 1 (some 5) 0 false)

/-- A cache with one tombstoned node: the entry was set and then deleted. -/
def c5Base : CacheState Nat Nat :=
  deleteOp (okState (setWithSizeAndExpiry 0 (newCache 10) 1 7 1 none 0 false)) 1

/-- A cache of capacity 5 holding one entry of cost 2 at node id 2. -/
def c10Base : CacheState Nat Nat :=
  okState (setWithSizeAndExpiry 0 (newCache 5) 1 7 2 none 0 false)

/-- A cache state reached through set, get and delete, for the list-shape
invariant scenario. -/
def c8Ops : List (CacheOp Nat Nat) :=
  [.set 1 5 1 none 0, .set 2 6 1 none 0, .get 1 0, .del 1]

def c8State : CacheState Nat Nat :=
  (runOps (newCache 4) false c8Ops).getD (newCache 0)

/-- State after a set of key 1 with value 42 on an empty cache of capacity 5. -/
def c3State : CacheState Nat Nat :=
  okState (setWithSizeAndExpiry 0 (newCache 5) 1 42 1 none 0 false)

/-! ### Arithmetic lemmas for the uint64 model -/

theorem U64_pos : 0 < U64 := by decide

theorem u64sub_eq {a b : Nat} (hb : b ≤ a) (ha : a < U64) : u64sub a b = a - b := by
  have hbU : b < U64 := lt_of_le_of_lt hb ha
  have : a + (U64 - b % U64) = (a - b) + U64 := by
    rw [Nat.mod_eq_of_lt hbU]
    omega
  rw [u64sub, this, Nat.add_mod_right, Nat.mod_eq_of_lt (by omega)]

theorem u64add_eq {a b : Nat} (h : a + b < U64) : u64add a b = a + b := by
  rw [u64add, Nat.mod_eq_of_lt h]

section Lemmas

variable {K V : Type} [DecidableEq K] [Inhabited K] [Inhabited V]

/-! ### Index (Go map) lemmas -/

theorem idxLookup_eq_some_iff {l : List (K × Nat)} {k : K} {n : Nat} :
    idxLookup l k = some n ↔ ∃ p ∈ l, l.find? (fun q => decide (q.1 = k)) = some p ∧
      p.1 = k ∧ p.2 = n := by
  simp only [idxLookup, Option.map_eq_some']
  constructor
  · rintro ⟨p, hfind, hn⟩
    exact ⟨p, List.mem_of_find?_eq_some hfind,
      hfind, by simpa using List.find?_some hfind, hn⟩
  · rintro ⟨p, _, hfind, _, hn⟩
    exact ⟨p, hfind, hn⟩

theorem mem_of_idxLookup {l : List (K × Nat)} {k : K} {n : Nat}
    (h : idxLookup l k = some n) : (k, n) ∈ l := by
  rcases idxLookup_eq_some_iff.1 h with ⟨p, hp, _, h1, h2⟩
  have : p = (k, n) := by cases p; simp_all
  exact this ▸ hp

theorem idxLookup_eq_none_iff {l : List (K × Nat)} {k : K} :
    idxLookup l k = none ↔ ∀ p ∈ l, p.1 ≠ k := by
  simp only [idxLookup, Option.map_eq_none', List.find?_eq_none, decide_eq_true_eq]

theorem idxLookup_of_mem {l : List (K × Nat)} {k : K} {n : Nat}
    (hnd : (l.map Prod.fst).Nodup) (h : (k, n) ∈ l) : idxLookup l k = some n := by
  induction l with
  | nil => cases h
  | cons p rest ih =>
    rcases List.mem_cons.1 h with rfl | hrest
    · simp [idxLookup, List.find?_cons]
    · have hne : p.1 ≠ k := by
        intro hk
        exact (List.nodup_cons.1 hnd).1 (hk ▸ List.mem_map_of_mem Prod.fst hrest)
      have := ih (List.nodup_cons.1 hnd).2 hrest
      simpa [idxLookup, List.find?_cons, hne] using this

theorem mem_idxDelete {l : List (K × Nat)} {k : K} {p : K × Nat} :
    p ∈ idxDelete l k ↔ p ∈ l ∧ p.1 ≠ k := by
  simp [idxDelete, List.mem_filter]

theorem idxDelete_sublist (l : List (K × Nat)) (k : K) : (idxDelete l k).Sublist l :=
  List.filter_sublist l

theorem idxLookup_idxDelete_self (l : List (K × Nat)) (k : K) :
    idxLookup (idxDelete l k) k = none :=
  idxLookup_eq_none_iff.2 fun p hp => (mem_idxDelete.1 hp).2

theorem idxDelete_of_forall_ne {l : List (K × Nat)} {k : K}
    (h : ∀ p ∈ l, p.1 ≠ k) : idxDelete l k = l :=
  List.filter_eq_self.2 fun p hp => by simpa using h p hp

/-- Split an index at a given entry: with nodup keys, deleting the entry's key
removes exactly that entry. -/
theorem idxDelete_split {l : List (K × Nat)} {k : K} {n : Nat}
    (hnd : (l.map Prod.fst).Nodup) (h : (k, n) ∈ l) :
    ∃ l1 l2, l = l1 ++ (k, n) :: l2 ∧ idxDelete l k = l1 ++ l2 := by
  induction l with
  | nil => cases h
  | cons p rest ih =>
    have hnd1 : p.1 ∉ rest.map Prod.fst := (List.nodup_cons.1 (by simpa using hnd)).1
    have hnd2 : (rest.map Prod.fst).Nodup := (List.nodup_cons.1 (by simpa using hnd)).2
    rcases List.mem_cons.1 h with rfl | hrest
    · refine ⟨[], rest, by simp, ?_⟩
      have hne : ∀ q ∈ rest, q.1 ≠ k := by
        intro q hq hk
        apply hnd1
        have : q.1 ∈ rest.map Prod.fst := List.mem_map_of_mem Prod.fst hq
        simpa [hk] using this
      show idxDelete ((k, n) :: rest) k = [] ++ rest
      rw [List.nil_append]
      have hstep : idxDelete ((k, n) :: rest) k = idxDelete rest k := by
        simp [idxDelete, List.filter_cons]
      rw [hstep]
      exact idxDelete_of_forall_ne hne
    · have hne : p.1 ≠ k := by
        intro hk
        apply hnd1
        have : (k, n).1 ∈ rest.map Prod.fst := List.mem_map_of_mem Prod.fst hrest
        simpa [hk] using this
      rcases ih hnd2 hrest with ⟨l1, l2, hl, hd⟩
      refine ⟨p :: l1, l2, by simp [hl], ?_⟩
      have : idxDelete (p :: rest) k = p :: idxDelete rest k := by
        simp [idxDelete, List.filter_cons, hne]
      rw [this, hd, List.cons_append]

/-! ### Heap field lemmas -/

@[simp] theorem writeNode_same (h : Nat → Node K V) (i : Nat) (nd : Node K V) :
    writeNode h i nd i = nd := by simp [writeNode]

@[simp] theorem writeNode_other (h : Nat → Node K V) {i j : Nat} (nd : Node K V)
    (hj : j ≠ i) : writeNode h i nd j = h j := by simp [writeNode, hj]

theorem setNextF_apply (h : Nat → Node K V) (i : Nat) (v : Option Nat) (j : Nat) :
    setNextF h i v j = if j = i then { h j with next := v } else h j := rfl

theorem setPrevF_apply (h : Nat → Node K V) (i : Nat) (v : Option Nat) (j : Nat) :
    setPrevF h i v j = if j = i then { h j with previous := v } else h j := rfl

theorem setDeletedF_apply (h : Nat → Node K V) (i : Nat) (b : Bool) (j : Nat) :
    setDeletedF h i b j = if j = i then { h j with deleted := b } else h j := rfl

@[simp] theorem setNextF_key (h : Nat → Node K V) (i : Nat) (v : Option Nat) (j : Nat) :
    (setNextF h i v j).key = (h j).key := by
  rw [setNextF_apply]; split <;> rfl

@[simp] theorem setNextF_value (h : Nat → Node K V) (i : Nat) (v : Option Nat) (j : Nat) :
    (setNextF h i v j).value = (h j).value := by
  rw [setNextF_apply]; split <;> rfl

@[simp] theorem setNextF_size (h : Nat → Node K V) (i : Nat) (v : Option Nat) (j : Nat) :
    (setNextF h i v j).size = (h j).size := by
  rw [setNextF_apply]; split <;> rfl

@[simp] theorem setNextF_expires (h : Nat → Node K V) (i : Nat) (v : Option Nat) (j : Nat) :
    (setNextF h i v j).expires = (h j).expires := by
  rw [setNextF_apply]; split <;> rfl

@[simp] theorem setNextF_deleted (h : Nat → Node K V) (i : Nat) (v : Option Nat) (j : Nat) :
    (setNextF h i v j).deleted = (h j).deleted := by
  rw [setNextF_apply]; split <;> rfl

@[simp] theorem setNextF_previous (h : Nat → Node K V) (i : Nat) (v : Option Nat) (j : Nat) :
    (setNextF h i v j).previous = (h j).previous := by
  rw [setNextF_apply]; split <;> rfl

theorem setNextF_next (h : Nat → Node K V) (i : Nat) (v : Option Nat) (j : Nat) :
    (setNextF h i v j).next = if j = i then v else (h j).next := by
  rw [setNextF_apply]; split <;> rfl

@[simp] theorem setNextF_next_same (h : Nat → Node K V) (i : Nat) (v : Option Nat) :
    (setNextF h i v i).next = v := by simp [setNextF_next]

@[simp] theorem setNextF_next_other (h : Nat → Node K V) {i j : Nat} (v : Option Nat)
    (hj : j ≠ i) : (setNextF h i v j).next = (h j).next := by simp [setNextF_next, hj]

@[simp] theorem setPrevF_key (h : Nat → Node K V) (i : Nat) (v : Option Nat) (j : Nat) :
    (setPrevF h i v j).key = (h j).key := by
  rw [setPrevF_apply]; split <;> rfl

@[simp] theorem setPrevF_value (h : Nat → Node K V) (i : Nat) (v : Option Nat) (j : Nat) :
    (setPrevF h i v j).value = (h j).value := by
  rw [setPrevF_apply]; split <;> rfl

@[simp] theorem setPrevF_size (h : Nat → Node K V) (i : Nat) (v : Option Nat) (j : Nat) :
    (setPrevF h i v j).size = (h j).size := by
  rw [setPrevF_apply]; split <;> rfl

@[simp] theorem setPrevF_expires (h : Nat → Node K V) (i : Nat) (v : Option Nat) (j : Nat) :
    (setPrevF h i v j).expires = (h j).expires := by
  rw [setPrevF_apply]; split <;> rfl

@[simp] theorem setPrevF_deleted (h : Nat → Node K V) (i : Nat) (v : Option Nat) (j : Nat) :
    (setPrevF h i v j).deleted = (h j).deleted := by
  rw [setPrevF_apply]; split <;> rfl

@[simp] theorem setPrevF_next (h : Nat → Node K V) (i : Nat) (v : Option Nat) (j : Nat) :
    (setPrevF h i v j).next = (h j).next := by
  rw [setPrevF_apply]; split <;> rfl

theorem setPrevF_previous (h : Nat → Node K V) (i : Nat) (v : Option Nat) (j : Nat) :
    (setPrevF h i v j).previous = if j = i then v else (h j).previous := by
  rw [setPrevF_apply]; split <;> rfl

@[simp] theorem setPrevF_previous_same (h : Nat → Node K V) (i : Nat) (v : Option Nat) :
    (setPrevF h i v i).previous = v := by simp [setPrevF_previous]

@[simp] theorem setPrevF_previous_other (h : Nat → Node K V) {i j : Nat} (v : Option Nat)
    (hj : j ≠ i) : (setPrevF h i v j).previous = (h j).previous := by
  simp [setPrevF_previous, hj]

@[simp] theorem setDeletedF_key (h : Nat → Node K V) (i : Nat) (b : Bool) (j : Nat) :
    (setDeletedF h i b j).key = (h j).key := by
  rw [setDeletedF_apply]; split <;> rfl

@[simp] theorem setDeletedF_value (h : Nat → Node K V) (i : Nat) (b : Bool) (j : Nat) :
    (setDeletedF h i b j).value = (h j).value := by
  rw [setDeletedF_apply]; split <;> rfl

@[simp] theorem setDeletedF_size (h : Nat → Node K V) (i : Nat) (b : Bool) (j : Nat) :
    (setDeletedF h i b j).size = (h j).size := by
  rw [setDeletedF_apply]; split <;> rfl

@[simp] theorem setDeletedF_expires (h : Nat → Node K V) (i : Nat) (b : Bool) (j : Nat) :
    (setDeletedF h i b j).expires = (h j).expires := by
  rw [setDeletedF_apply]; split <;> rfl

@[simp] theorem setDeletedF_next (h : Nat → Node K V) (i : Nat) (b : Bool) (j : Nat) :
    (setDeletedF h i b j).next = (h j).next := by
  rw [setDeletedF_apply]; split <;> rfl

@[simp] theorem setDeletedF_previous (h : Nat → Node K V) (i : Nat) (b : Bool) (j : Nat) :
    (setDeletedF h i b j).previous = (h j).previous := by
  rw [setDeletedF_apply]; split <;> rfl

theorem setDeletedF_deleted (h : Nat → Node K V) (i : Nat) (b : Bool) (j : Nat) :
    (setDeletedF h i b j).deleted = if j = i then b else (h j).deleted := by
  rw [setDeletedF_apply]; split <;> rfl

@[simp] theorem setDeletedF_deleted_same (h : Nat → Node K V) (i : Nat) (b : Bool) :
    (setDeletedF h i b i).deleted = b := by simp [setDeletedF_deleted]

@[simp] theorem setDeletedF_deleted_other (h : Nat → Node K V) {i j : Nat} (b : Bool)
    (hj : j ≠ i) : (setDeletedF h i b j).deleted = (h j).deleted := by
  simp [setDeletedF_deleted, hj]

/-! ### The recency list as a chain of linked node ids -/

/-- A chain is unaffected by heap changes that do not touch the `next` field
of its non-final members nor the `previous` field of its non-initial members. -/
theorem chain_congr {h h' : Nat → Node K V} :
    ∀ (l : List Nat), (∀ x ∈ l.dropLast, (h' x).next = (h x).next) →
      (∀ x ∈ l.tail, (h' x).previous = (h x).previous) →
      List.Chain' (linkRel h) l → List.Chain' (linkRel h') l
  | [], _, _, _ => List.chain'_nil
  | [a], _, _, _ => List.chain'_singleton a
  | a :: b :: l, hn, hp, hc => by
    rw [List.chain'_cons] at hc ⊢
    refine ⟨⟨?_, ?_⟩, ?_⟩
    · rw [hn a (by rw [List.dropLast_cons₂]; exact List.mem_cons_self a _)]
      exact hc.1.1
    · rw [hp b (List.mem_cons_self b l)]
      exact hc.1.2
    · refine chain_congr (b :: l) ?_ ?_ hc.2
      · intro x hx
        refine hn x ?_
        rw [List.dropLast_cons₂]
        exact List.mem_cons_of_mem a hx
      · intro x hx
        exact hp x (List.mem_cons_of_mem b hx)

theorem mem_of_getLast? {l : List Nat} {a : Nat} (h : l.getLast? = some a) : a ∈ l := by
  have := List.dropLast_append_getLast? a h
  rw [← this]
  exact List.mem_append_right _ (List.mem_singleton_self a)

theorem getLast?_not_mem_dropLast {l : List Nat} (hnd : l.Nodup) {a : Nat}
    (ha : l.getLast? = some a) : a ∉ l.dropLast := by
  intro hmem
  have hl := List.dropLast_append_getLast? a ha
  rw [← hl] at hnd
  exact (List.nodup_append.1 hnd).2.2 hmem (List.mem_singleton_self a)

/-- Unlinking an interior node of a chain: bypassing it with the two writes of
`removeNodeFromList` yields the chain with the node removed; the node's own
stored links are its old neighbours. -/
theorem chain_unlink {h : Nat → Node K V} {X Y : List Nat} {a b n : Nat}
    (ha : X.getLast? = some a) (hb : Y.head? = some b)
    (hnd : (X ++ n :: Y).Nodup)
    (hc : List.Chain' (linkRel h) (X ++ n :: Y)) :
    (h n).previous = some a ∧ (h n).next = some b ∧
      List.Chain' (linkRel (setPrevF (setNextF h a (some b)) b (some a))) (X ++ Y) := by
  obtain ⟨hcX, hcNY, hbd⟩ := List.chain'_append.1 hc
  obtain ⟨Y', rfl⟩ : ∃ Y', Y = b :: Y' := by
    cases Y with
    | nil => cases hb
    | cons c Y' => exact ⟨Y', by simpa using (by simpa using hb : c = b) ▸ rfl⟩
  have hRan : linkRel h a n := hbd a ha n rfl
  rw [List.chain'_cons] at hcNY
  obtain ⟨hRnb, hcY⟩ := hcNY
  obtain ⟨hndX, hndNY, hdisj⟩ := List.nodup_append.1 hnd
  have haX : a ∈ X := mem_of_getLast? ha
  have hbY : b ∈ b :: Y' := List.mem_cons_self b Y'
  have hbY' : b ∉ Y' := (List.nodup_cons.1 (List.nodup_cons.1 hndNY).2).1
  have hnotX : ∀ x ∈ X, x ≠ b ∧ x ≠ n := by
    intro x hx
    constructor
    · intro he; subst he; exact hdisj hx (List.mem_cons_of_mem n hbY)
    · intro he; subst he; exact hdisj hx (List.mem_cons_self x _)
  have hnotY : ∀ x ∈ b :: Y', x ≠ a := by
    intro x hx he
    subst he
    exact hdisj haX (List.mem_cons_of_mem n hx)
  refine ⟨hRan.2, hRnb.1, ?_⟩
  refine List.chain'_append.2 ⟨?_, ?_, ?_⟩
  · refine chain_congr X ?_ ?_ hcX
    · intro x hx
      have hxa : x ≠ a := fun he => getLast?_not_mem_dropLast hndX ha (he ▸ hx)
      simp [setNextF_next, hxa]
    · intro x hx
      have := (hnotX x (List.mem_of_mem_tail hx)).1
      simp [setPrevF_previous, this]
  · refine chain_congr (b :: Y') ?_ ?_ hcY
    · intro x hx
      have hxa : x ≠ a := hnotY x (List.mem_of_mem_dropLast hx)
      simp [setNextF_next, hxa]
    · intro x hx
      have hxb : x ≠ b := fun he => hbY' (he ▸ hx)
      simp [setPrevF_previous, hxb]
  · intro x hx y hy
    rw [ha] at hx
    simp only [Option.mem_def, Option.some_inj] at hx
    simp only [List.head?_cons, Option.mem_def, Option.some_inj] at hy
    subst hx; subst hy
    constructor
    · simp [setNextF_next]
    · simp [setPrevF_previous]

/-- Inserting a fresh node right after the head of a chain with the four
writes of `addNodeBetween`. -/
theorem chain_link {h : Nat → Node K V} {x y : Nat} {l : List Nat} {n : Nat}
    (hnmem : n ∉ x :: y :: l) (hnd : (x :: y :: l).Nodup)
    (hc : List.Chain' (linkRel h) (x :: y :: l)) :
    List.Chain' (linkRel (addBetweenHeap h n x y)) (x :: n :: y :: l) := by
  have hnx : n ≠ x := by
    intro he; subst he; exact hnmem (List.mem_cons_self n _)
  have hny : n ≠ y := by
    intro he; subst he; exact hnmem (List.mem_cons_of_mem x (List.mem_cons_self n l))
  have hxy : x ≠ y := by
    intro he; subst he; exact (List.nodup_cons.1 hnd).1 (List.mem_cons_self x l)
  rw [List.chain'_cons] at hc
  rw [List.chain'_cons, List.chain'_cons]
  refine ⟨⟨?_, ?_⟩, ⟨?_, ?_⟩, ?_⟩
  · simp [addBetweenHeap, setNextF_next, hnx, Ne.symm hnx]
  · simp [addBetweenHeap, setPrevF_previous]
  · simp [addBetweenHeap, setNextF_next]
  · simp [addBetweenHeap, setNextF_next, setPrevF_previous, hny, Ne.symm hny, hxy, Ne.symm hxy]
  · refine chain_congr (y :: l) ?_ ?_ hc.2
    · intro z hz
      have hz' : z ∈ y :: l := List.mem_of_mem_dropLast hz
      have hzx : z ≠ x := fun he => (List.nodup_cons.1 hnd).1 (he ▸ hz')
      have hzn : z ≠ n := fun he => hnmem (he ▸ List.mem_cons_of_mem x hz')
      simp [addBetweenHeap, setNextF_next, hzx, hzn]
    · intro z hz
      have hzy : z ≠ y := fun he => (List.nodup_cons.1 (List.nodup_cons.1 hnd).2).1 (he ▸ hz)
      have hzn : z ≠ n := fun he =>
        hnmem (he ▸ List.mem_cons_of_mem x (List.mem_cons_of_mem y hz))
      simp [addBetweenHeap, setPrevF_previous, hzy, hzn]

/-! ### Data-preservation predicates and cost sums -/

theorem presData_refl (h : Nat → Node K V) : presData h h :=
  fun _ => ⟨rfl, rfl, rfl, rfl⟩

theorem presData_trans {h h' h'' : Nat → Node K V} (h1 : presData h h')
    (h2 : presData h' h'') : presData h h'' := by
  intro j
  obtain ⟨a1, b1, c1, d1⟩ := h1 j
  obtain ⟨a2, b2, c2, d2⟩ := h2 j
  exact ⟨a2.trans a1, b2.trans b1, c2.trans c1, d2.trans d1⟩

theorem costSum_eq_listCost (st : CacheState K V) : costSum st = listCost st.heap st.index :=
  rfl

theorem listCost_congr {h h' : Nat → Node K V} (l : List (K × Nat))
    (hsz : ∀ p ∈ l, (h' p.2).size = (h p.2).size) : listCost h' l = listCost h l := by
  unfold listCost
  congr 1
  exact List.map_congr_left fun p hp => hsz p hp

theorem listCost_append (h : Nat → Node K V) (l1 l2 : List (K × Nat)) :
    listCost h (l1 ++ l2) = listCost h l1 + listCost h l2 := by
  simp [listCost]

theorem listCost_cons (h : Nat → Node K V) (p : K × Nat) (l : List (K × Nat)) :
    listCost h (p :: l) = (h p.2).size + listCost h l := by
  simp [listCost]

theorem WF.size_lt {st : CacheState K V} {L : List Nat} (wf : WF st L) : st.size < U64 :=
  lt_of_le_of_lt wf.sizeLe wf.capLt

theorem WF.full_nodup {st : CacheState K V} {L : List Nat} (wf : WF st L) :
    (fullChain L).Nodup := by
  unfold fullChain
  refine List.nodup_cons.2 ⟨?_, List.nodup_append.2 ⟨wf.chainNodup, by simp, ?_⟩⟩
  · intro hmem
    rcases List.mem_append.1 hmem with h | h
    · exact (wf.chainSent _ h).1 rfl
    · simp [headId, tailId] at h
  · intro x hx hx'
    have : x = tailId := by simpa using hx'
    exact (wf.chainSent x hx).2 this

theorem WF.key_inj {st : CacheState K V} {L : List Nat} (wf : WF st L)
    {k1 k2 : K} {n : Nat} (h1 : (k1, n) ∈ st.index) (h2 : (k2, n) ∈ st.index) : k1 = k2 := by
  have e1 := (wf.idxMem _ h1).1
  have e2 := (wf.idxMem _ h2).1
  exact e1.symm.trans e2

theorem WF.cost_le {st : CacheState K V} {L : List Nat} (wf : WF st L)
    {k : K} {n : Nat} (h : (k, n) ∈ st.index) : (st.heap n).size ≤ st.size := by
  rw [wf.sizeEq, costSum]
  refine List.single_le_sum (fun x _ => Nat.zero_le x) _ ?_
  exact List.mem_map_of_mem (fun p => (st.heap p.2).size) h

theorem WF.ids_nodup {st : CacheState K V} {L : List Nat} (wf : WF st L) :
    (st.index.map Prod.snd).Nodup := by
  have hidx : st.index.Nodup := wf.keysNodup.of_map Prod.fst
  refine List.Nodup.map_on ?_ hidx
  intro p hp q hq he
  have hp' : (p.1, p.2) ∈ st.index := by simpa using hp
  have hq' : (q.1, q.2) ∈ st.index := by simpa using hq
  have hk : p.1 = q.1 := wf.key_inj hp' (by rw [he]; exact hq')
  cases p; cases q
  simp_all

theorem WF.length_eq {st : CacheState K V} {L : List Nat} (wf : WF st L) :
    L.length = st.index.length := by
  have hids : (st.index.map Prod.snd).Nodup := wf.ids_nodup
  have hsub1 : L ⊆ st.index.map Prod.snd := by
    intro n hn
    obtain ⟨k, hk⟩ := wf.memIdx n hn
    simpa using List.mem_map_of_mem Prod.snd hk
  have hsub2 : st.index.map Prod.snd ⊆ L := by
    intro n hn
    obtain ⟨p, hp, he⟩ := List.mem_map.1 hn
    exact he ▸ (wf.idxMem p hp).2.2.2.2
  have hp : L.Perm (st.index.map Prod.snd) :=
    (wf.chainNodup.subperm hsub1).antisymm (hids.subperm hsub2)
  rw [hp.length_eq, List.length_map]

theorem wf_newCache (capacity : Nat) : WF (newCache capacity : CacheState K V) [] := by
  refine ⟨Nat.mod_lt _ U64_pos, le_refl 2, by simp, List.nodup_nil, by simp, rfl, rfl, ?_,
    by simp [newCache], by simp [newCache], by simp, rfl, Nat.zero_le _⟩
  exact List.chain'_cons.2 ⟨⟨rfl, rfl⟩, List.chain'_singleton _⟩

/-! ### Frame lemmas for the list primitives -/

theorem removeNodeFromList_index (st : CacheState K V) (n : Nat) :
    (removeNodeFromList st n).index = st.index := by
  unfold removeNodeFromList
  cases (st.heap n).previous <;> cases (st.heap n).next <;> rfl

theorem removeNodeFromList_size (st : CacheState K V) (n : Nat) :
    (removeNodeFromList st n).size = st.size := by
  unfold removeNodeFromList
  cases (st.heap n).previous <;> cases (st.heap n).next <;> rfl

theorem removeNodeFromList_capacity (st : CacheState K V) (n : Nat) :
    (removeNodeFromList st n).capacity = st.capacity := by
  unfold removeNodeFromList
  cases (st.heap n).previous <;> cases (st.heap n).next <;> rfl

theorem removeNodeFromList_nextId (st : CacheState K V) (n : Nat) :
    (removeNodeFromList st n).nextId = st.nextId := by
  unfold removeNodeFromList
  cases (st.heap n).previous <;> cases (st.heap n).next <;> rfl

theorem removeNodeFromList_presData (st : CacheState K V) (n : Nat) :
    presData st.heap (removeNodeFromList st n).heap := by
  unfold removeNodeFromList
  cases (st.heap n).previous <;> cases (st.heap n).next <;> intro j <;> simp

theorem removeNodeFromList_deleted (st : CacheState K V) (n : Nat) (j : Nat) :
    ((removeNodeFromList st n).heap j).deleted = (st.heap j).deleted := by
  unfold removeNodeFromList
  cases (st.heap n).previous <;> cases (st.heap n).next <;> simp

theorem removeNodeFromList_setIndex (st : CacheState K V) (I : List (K × Nat)) (n : Nat) :
    removeNodeFromList { st with index := I } n =
      { removeNodeFromList st n with index := I } := by
  unfold removeNodeFromList
  cases (st.heap n).previous <;> cases (st.heap n).next <;> rfl

/-- Canonical form of the Remove event's state effect. -/
theorem applyRemove_eq (st : CacheState K V) (n : Nat) :
    applyRemove st n =
      { removeNodeFromList st n with
        index := idxDelete st.index (st.heap n).key
        size := u64sub st.size (st.heap n).size
        heap := setDeletedF (removeNodeFromList st n).heap n true } := by
  cases st with
  | mk s c i h ni po =>
    unfold applyRemove removeNodeFromList
    cases (h n).previous <;> cases (h n).next <;> simp

/-! ### Facts carried across a state-shrinking step -/

theorem mem_fullChain {L : List Nat} {j : Nat} :
    j ∈ fullChain L ↔ j = headId ∨ j ∈ L ∨ j = tailId := by
  simp [fullChain, or_assoc]

theorem fullChain_subset {L L' : List Nat} (h : L' ⊆ L) : fullChain L' ⊆ fullChain L := by
  intro j hj
  rcases mem_fullChain.1 hj with h1 | h1 | h1
  · exact mem_fullChain.2 (Or.inl h1)
  · exact mem_fullChain.2 (Or.inr (Or.inl (h h1)))
  · exact mem_fullChain.2 (Or.inr (Or.inr h1))

theorem StepFacts.rfl' (L : List Nat) (st : CacheState K V) : StepFacts L st st :=
  ⟨rfl, rfl, List.Sublist.refl _, presData_refl _, fun _ _ => rfl, fun _ _ => ⟨rfl, rfl⟩⟩

theorem StepFacts.trans {L L' : List Nat} {st st' st'' : CacheState K V}
    (h1 : StepFacts L st st') (h2 : StepFacts L' st' st'') (hsub : L' ⊆ L) :
    StepFacts L st st'' := by
  refine ⟨h2.cap.trans h1.cap, h2.nid.trans h1.nid, h2.sub.trans h1.sub,
    presData_trans h1.data h2.data, ?_, ?_⟩
  · intro j hj
    exact (h2.del j (fun hm => hj (hsub hm))).trans (h1.del j hj)
  · intro j hj
    have hj' : j ∉ fullChain L' := fun hm => hj (fullChain_subset hsub hm)
    exact ⟨(h2.links j hj').1.trans (h1.links j hj).1,
      (h2.links j hj').2.trans (h1.links j hj).2⟩

theorem mem_of_head? {l : List Nat} {b : Nat} (h : l.head? = some b) : b ∈ l := by
  cases l with
  | nil => cases h
  | cons c t =>
    have : c = b := by simpa using h
    exact this ▸ List.mem_cons_self c t

theorem id_of_key {l : List (K × Nat)} (hnd : (l.map Prod.fst).Nodup)
    {k : K} {n m : Nat} (h1 : (k, n) ∈ l) (h2 : (k, m) ∈ l) : n = m := by
  have e1 := idxLookup_of_mem hnd h1
  have e2 := idxLookup_of_mem hnd h2
  rw [e1] at e2
  exact Option.some_inj.1 e2

/-- Removing an indexed entry via the Remove event preserves well-formedness:
the entry disappears from the chain and the index, and its cost is freed. -/
theorem wf_removeEntry {st : CacheState K V} {L l1 l2 : List Nat} {n : Nat}
    (wf : WF st L) {k : K} (hmem : (k, n) ∈ st.index) (hdec : L = l1 ++ n :: l2) :
      WF (applyRemove st n) (l1 ++ l2) ∧
      StepFacts L st (applyRemove st n) ∧
      (applyRemove st n).index = idxDelete st.index k ∧
      (applyRemove st n).size = st.size - (st.heap n).size ∧
      ((applyRemove st n).heap n).deleted = true := by
  obtain ⟨hkey, hdel0, hsz1, hszU, hnL⟩ := wf.idxMem _ hmem
  subst hdec
  have hfull : fullChain (l1 ++ n :: l2) = (headId :: l1) ++ n :: (l2 ++ [tailId]) := by
    simp [fullChain]
  have hnd : ((headId :: l1) ++ n :: (l2 ++ [tailId])).Nodup := hfull ▸ wf.full_nodup
  have hc : List.Chain' (linkRel st.heap) ((headId :: l1) ++ n :: (l2 ++ [tailId])) :=
    hfull ▸ wf.chain
  obtain ⟨a, ha⟩ : ∃ a, (headId :: l1).getLast? = some a :=
    Option.isSome_iff_exists.1 (List.getLast?_isSome.2 (by simp))
  obtain ⟨b, hb⟩ : ∃ b, (l2 ++ [tailId]).head? = some b := by
    cases l2 with
    | nil => exact ⟨tailId, rfl⟩
    | cons c t => exact ⟨c, rfl⟩
  obtain ⟨hprev, hnext, hchain2⟩ := chain_unlink ha hb hnd hc
  have haX : a ∈ headId :: l1 := mem_of_getLast? ha
  have hbY : b ∈ l2 ++ [tailId] := mem_of_head? hb
  have hL : (l1 ++ n :: l2).Nodup := wf.chainNodup
  have hnl1 : n ∉ l1 := by
    intro hmem'
    exact (List.nodup_append.1 hL).2.2 hmem' (List.mem_cons_self n l2)
  have hnl2 : n ∉ l2 :=
    (List.nodup_cons.1 (List.nodup_append.1 hL).2.1).1
  have hn0 : n ≠ headId := (wf.chainSent n hnL).1
  have hn1 : n ≠ tailId := (wf.chainSent n hnL).2
  have haT : a ≠ tailId := by
    rcases List.mem_cons.1 haX with rfl | hmem'
    · simp [headId, tailId]
    · exact (wf.chainSent a (List.mem_append_left _ hmem')).2
  have hbH : b ≠ headId := by
    rcases List.mem_append.1 hbY with hmem' | hmem'
    · exact (wf.chainSent b (List.mem_append_right _ (List.mem_cons_of_mem n hmem'))).1
    · have : b = tailId := by simpa using hmem'
      simp [this, headId, tailId]
  have haF : a ∈ fullChain (l1 ++ n :: l2) := by
    rw [hfull]
    exact List.mem_append_left _ haX
  have hbF : b ∈ fullChain (l1 ++ n :: l2) := by
    rw [hfull]
    exact List.mem_append_right _ (List.mem_cons_of_mem n hbY)
  have hnF : n ∈ fullChain (l1 ++ n :: l2) := by
    rw [hfull]
    exact List.mem_append_right _ (List.mem_cons_self n _)
  have hrmheap : (removeNodeFromList st n).heap =
      setPrevF (setNextF st.heap a (some b)) b (some a) := by
    unfold removeNodeFromList
    rw [hprev, hnext]
  have happly := applyRemove_eq st n
  have hski : (applyRemove st n).index = idxDelete st.index k := by
    rw [happly, hkey]
  have hskh : (applyRemove st n).heap =
      setDeletedF (setPrevF (setNextF st.heap a (some b)) b (some a)) n true := by
    rw [happly, hrmheap]
  have hcostle : (st.heap n).size ≤ st.size := wf.cost_le hmem
  have hsks : (applyRemove st n).size = st.size - (st.heap n).size := by
    rw [happly]
    exact u64sub_eq hcostle wf.size_lt
  have hcap : (applyRemove st n).capacity = st.capacity := by
    rw [happly]
    exact removeNodeFromList_capacity st n
  have hnid : (applyRemove st n).nextId = st.nextId := by
    rw [happly]
    exact removeNodeFromList_nextId st n
  have hdata : presData st.heap (applyRemove st n).heap := by
    rw [hskh]
    intro j
    simp
  have hdelj : ∀ j, j ≠ n → ((applyRemove st n).heap j).deleted = (st.heap j).deleted := by
    intro j hj
    rw [hskh]
    simp [setDeletedF_deleted, hj]
  have hlinkj : ∀ j, j ≠ a → j ≠ b →
      ((applyRemove st n).heap j).previous = (st.heap j).previous ∧
      ((applyRemove st n).heap j).next = (st.heap j).next := by
    intro j hja hjb
    rw [hskh]
    constructor
    · simp [setPrevF_previous, hjb]
    · simp [setNextF_next, hja]
  -- index split for the cost sum
  obtain ⟨i1, i2, hidx, hidxdel⟩ := idxDelete_split wf.keysNodup hmem
  have hsum : st.size = listCost st.heap i1 + ((st.heap n).size + listCost st.heap i2) := by
    have := wf.sizeEq
    rw [costSum_eq_listCost, hidx, listCost_append, listCost_cons] at this
    exact this
  refine ⟨?_, ?_, hski, hsks, by rw [hskh]; simp⟩
  · -- well-formedness of the new state
    refine ⟨hcap ▸ wf.capLt, hnid ▸ wf.nid2, ?_, ?_, ?_, ?_, ?_, ?_, ?_, ?_, ?_, ?_, ?_⟩
    · intro m hm
      rw [hnid]
      exact wf.chainLt m (by
        rcases List.mem_append.1 hm with h | h
        · exact List.mem_append_left _ h
        · exact List.mem_append_right _ (List.mem_cons_of_mem n h))
    · exact ((List.sublist_cons_self n l2).append_left l1).nodup hL
    · intro m hm
      refine wf.chainSent m ?_
      rcases List.mem_append.1 hm with h | h
      · exact List.mem_append_left _ h
      · exact List.mem_append_right _ (List.mem_cons_of_mem n h)
    · rw [hskh]
      have h0b : headId ≠ b := Ne.symm hbH
      have h0n : headId ≠ n := Ne.symm hn0
      simp [setDeletedF_apply, setPrevF_previous, h0n, h0b, wf.headPrev]
    · rw [hskh]
      have h1a : tailId ≠ a := Ne.symm haT
      have h1n : tailId ≠ n := Ne.symm hn1
      simp [setDeletedF_apply, setNextF_next, h1n, h1a, wf.tailNext]
    · -- the chain
      have hfull2 : fullChain (l1 ++ l2) = (headId :: l1) ++ (l2 ++ [tailId]) := by
        simp [fullChain]
      rw [hfull2, hskh]
      refine chain_congr _ ?_ ?_ hchain2
      · intro x hx
        simp
      · intro x hx
        simp
    · rw [hski]
      exact wf.keysNodup.sublist ((idxDelete_sublist st.index k).map Prod.fst)
    · intro p hp
      rw [hski] at hp
      obtain ⟨hpmem, hpk⟩ := mem_idxDelete.1 hp
      obtain ⟨e1, e2, e3, e4, e5⟩ := wf.idxMem p hpmem
      have hpn : p.2 ≠ n := by
        intro he
        exact hpk (wf.key_inj (he ▸ (by simpa using hpmem)) hmem)
      have hdataj := hdata p.2
      refine ⟨hdataj.1.trans e1, (hdelj p.2 hpn).trans e2, hdataj.2.2.1 ▸ e3,
        hdataj.2.2.1 ▸ e4, ?_⟩
      rcases List.mem_append.1 e5 with h | h
      · exact List.mem_append_left _ h
      · rcases List.mem_cons.1 h with he | h
        · exact absurd he hpn
        · exact List.mem_append_right _ h
    · intro m hm
      have hmL : m ∈ l1 ++ n :: l2 := by
        rcases List.mem_append.1 hm with h | h
        · exact List.mem_append_left _ h
        · exact List.mem_append_right _ (List.mem_cons_of_mem n h)
      obtain ⟨k', hk'⟩ := wf.memIdx m hmL
      have hmn : m ≠ n := by
        intro he
        subst he
        rcases List.mem_append.1 hm with h | h
        · exact hnl1 h
        · exact hnl2 h
      have hk'k : k' ≠ k := by
        intro he
        subst he
        exact hmn (id_of_key wf.keysNodup hk' hmem)
      refine ⟨k', ?_⟩
      rw [hski]
      exact mem_idxDelete.2 ⟨hk', hk'k⟩
    · -- size equation
      rw [hsks, costSum_eq_listCost, hski, hidxdel, listCost_append]
      have hc1 : listCost (applyRemove st n).heap i1 = listCost st.heap i1 :=
        listCost_congr i1 (fun p _ => (hdata p.2).2.2.1)
      have hc2 : listCost (applyRemove st n).heap i2 = listCost st.heap i2 :=
        listCost_congr i2 (fun p _ => (hdata p.2).2.2.1)
      rw [hc1, hc2]
      omega
    · rw [hsks, hcap]
      exact le_trans (Nat.sub_le _ _) wf.sizeLe
  · -- step facts
    refine ⟨hcap, hnid, ?_, hdata, ?_, ?_⟩
    · rw [hski]
      exact idxDelete_sublist st.index k
    · intro j hj
      exact hdelj j (fun he => hj (he ▸ hnL))
    · intro j hj
      exact hlinkj j (fun he => hj (he ▸ haF)) (fun he => hj (he ▸ hbF))

/-- Touching a linked live node moves it to the front of the chain and
changes nothing else. -/
theorem wf_touch {st : CacheState K V} {L : List Nat} (wf : WF st L) {n : Nat}
    (hnL : n ∈ L) :
    ∃ st', addNodeToHead st n = some st' ∧
      ∃ l1 l2, L = l1 ++ n :: l2 ∧ WF st' (n :: (l1 ++ l2)) ∧
      st'.index = st.index ∧ st'.size = st.size ∧ st'.capacity = st.capacity ∧
      st'.nextId = st.nextId ∧ presData st.heap st'.heap ∧
      (∀ j, (st'.heap j).deleted = (st.heap j).deleted) := by
  obtain ⟨l1, l2, rfl⟩ := List.append_of_mem hnL
  have hfull : fullChain (l1 ++ n :: l2) = (headId :: l1) ++ n :: (l2 ++ [tailId]) := by
    simp [fullChain]
  have hnd : ((headId :: l1) ++ n :: (l2 ++ [tailId])).Nodup := hfull ▸ wf.full_nodup
  have hc : List.Chain' (linkRel st.heap) ((headId :: l1) ++ n :: (l2 ++ [tailId])) :=
    hfull ▸ wf.chain
  obtain ⟨a, ha⟩ : ∃ a, (headId :: l1).getLast? = some a :=
    Option.isSome_iff_exists.1 (List.getLast?_isSome.2 (by simp))
  obtain ⟨b, hb⟩ : ∃ b, (l2 ++ [tailId]).head? = some b := by
    cases l2 with
    | nil => exact ⟨tailId, rfl⟩
    | cons c t => exact ⟨c, rfl⟩
  obtain ⟨hprev, hnext, hchain2⟩ := chain_unlink ha hb hnd hc
  have hndXY : ((headId :: l1) ++ (l2 ++ [tailId])).Nodup :=
    ((List.sublist_cons_self n (l2 ++ [tailId])).append_left (headId :: l1)).nodup hnd
  have hL : (l1 ++ n :: l2).Nodup := wf.chainNodup
  have hnl1 : n ∉ l1 := by
    intro hmem'
    exact (List.nodup_append.1 hL).2.2 hmem' (List.mem_cons_self n l2)
  have hnl2 : n ∉ l2 :=
    (List.nodup_cons.1 (List.nodup_append.1 hL).2.1).1
  have hn0 : n ≠ headId := (wf.chainSent n hnL).1
  have hn1 : n ≠ tailId := (wf.chainSent n hnL).2
  have haX : a ∈ headId :: l1 := mem_of_getLast? ha
  have hbY : b ∈ l2 ++ [tailId] := mem_of_head? hb
  have haT : a ≠ tailId := by
    rcases List.mem_cons.1 haX with rfl | hmem'
    · simp [headId, tailId]
    · exact (wf.chainSent a (List.mem_append_left _ hmem')).2
  have hbH : b ≠ headId := by
    rcases List.mem_append.1 hbY with hmem' | hmem'
    · exact (wf.chainSent b (List.mem_append_right _ (List.mem_cons_of_mem n hmem'))).1
    · have : b = tailId := by simpa using hmem'
      simp [this, headId, tailId]
  have hrmheap : (removeNodeFromList st n).heap =
      setPrevF (setNextF st.heap a (some b)) b (some a) := by
    unfold removeNodeFromList
    rw [hprev, hnext]
  -- the tail of the unlinked chain is nonempty
  obtain ⟨y, rest, hyr⟩ : ∃ y rest, l1 ++ (l2 ++ [tailId]) = y :: rest := by
    cases hcase : l1 ++ (l2 ++ [tailId]) with
    | nil => simp at hcase
    | cons y rest => exact ⟨y, rest, rfl⟩
  have hchain2' : List.Chain' (linkRel (removeNodeFromList st n).heap)
      (headId :: y :: rest) := by
    rw [hrmheap]
    have : (headId :: l1) ++ (l2 ++ [tailId]) = headId :: y :: rest := by
      rw [List.cons_append, hyr]
    exact this ▸ hchain2
  have hheadnext : ((removeNodeFromList st n).heap headId).next = some y :=
    (List.chain'_cons.1 hchain2').1.1
  have hstep : addNodeToHead st n = some (addNodeBetween (removeNodeFromList st n) n headId y) := by
    unfold addNodeToHead
    rw [hprev]
    simp only [Option.isSome_some, if_true]
    rw [hheadnext]
  have hndc : (headId :: y :: rest).Nodup := by
    have : (headId :: l1) ++ (l2 ++ [tailId]) = headId :: y :: rest := by
      rw [List.cons_append, hyr]
    exact this ▸ hndXY
  have hnmem : n ∉ headId :: y :: rest := by
    intro hmem'
    rcases List.mem_cons.1 hmem' with he | hmem'
    · exact hn0 he
    · rw [← hyr] at hmem'
      rcases List.mem_append.1 hmem' with h | h
      · exact hnl1 h
      · rcases List.mem_append.1 h with h | h
        · exact hnl2 h
        · exact hn1 (by simpa using h)
  have hchain3 := chain_link hnmem hndc hchain2'
  set st' := addNodeBetween (removeNodeFromList st n) n headId y with hst'
  have hheap' : st'.heap = addBetweenHeap (removeNodeFromList st n).heap n headId y := rfl
  have hidx' : st'.index = st.index := by
    rw [hst']
    show (removeNodeFromList st n).index = st.index
    exact removeNodeFromList_index st n
  have hsize' : st'.size = st.size := removeNodeFromList_size st n
  have hcap' : st'.capacity = st.capacity := removeNodeFromList_capacity st n
  have hnid' : st'.nextId = st.nextId := removeNodeFromList_nextId st n
  have hdata' : presData st.heap st'.heap := by
    refine presData_trans (removeNodeFromList_presData st n) ?_
    rw [hheap']
    intro j
    simp [addBetweenHeap]
  have hdel' : ∀ j, (st'.heap j).deleted = (st.heap j).deleted := by
    intro j
    have h1 := removeNodeFromList_deleted st n j
    have h2 : (st'.heap j).deleted = ((removeNodeFromList st n).heap j).deleted := by
      rw [hheap']
      simp [addBetweenHeap]
    exact h2.trans h1
  have hy0 : y ≠ headId := by
    intro he
    exact (List.nodup_cons.1 hndc).1 (he ▸ List.mem_cons_self y rest)
  refine ⟨st', hstep, l1, l2, rfl, ?_, hidx', hsize', hcap', hnid', hdata', hdel'⟩
  refine ⟨hcap' ▸ wf.capLt, hnid' ▸ wf.nid2, ?_, ?_, ?_, ?_, ?_, ?_, ?_, ?_, ?_, ?_, ?_⟩
  · intro m hm
    rw [hnid']
    refine wf.chainLt m ?_
    rcases List.mem_cons.1 hm with rfl | hm
    · exact hnL
    · rcases List.mem_append.1 hm with h | h
      · exact List.mem_append_left _ h
      · exact List.mem_append_right _ (List.mem_cons_of_mem n h)
  · refine List.nodup_cons.2 ⟨?_, ?_⟩
    · intro hmem'
      rcases List.mem_append.1 hmem' with h | h
      · exact hnl1 h
      · exact hnl2 h
    · exact ((List.sublist_cons_self n l2).append_left l1).nodup hL
  · intro m hm
    rcases List.mem_cons.1 hm with rfl | hm
    · exact ⟨hn0, hn1⟩
    · refine wf.chainSent m ?_
      rcases List.mem_append.1 hm with h | h
      · exact List.mem_append_left _ h
      · exact List.mem_append_right _ (List.mem_cons_of_mem n h)
  · -- head sentinel's previous pointer
    rw [hheap', hrmheap]
    have h0b : headId ≠ b := Ne.symm hbH
    have h0y : headId ≠ y := Ne.symm hy0
    have h0n : headId ≠ n := Ne.symm hn0
    simp [addBetweenHeap, setPrevF_previous, h0b, h0y, h0n, wf.headPrev]
  · -- tail sentinel's next pointer
    rw [hheap', hrmheap]
    have h1a : tailId ≠ a := Ne.symm haT
    have h1n : tailId ≠ n := Ne.symm hn1
    have h10 : tailId ≠ headId := by simp [headId, tailId]
    simp [addBetweenHeap, setNextF_next, h1a, h1n, h10, wf.tailNext]
  · -- the chain
    have hfull3 : fullChain (n :: (l1 ++ l2)) = headId :: n :: y :: rest := by
      unfold fullChain
      rw [← hyr]
      simp
    rw [hfull3, hheap']
    exact hchain3
  · rw [hidx']
    exact wf.keysNodup
  · intro p hp
    rw [hidx'] at hp
    obtain ⟨e1, e2, e3, e4, e5⟩ := wf.idxMem p hp
    have hd := hdata' p.2
    refine ⟨hd.1.trans e1, (hdel' p.2).trans e2, hd.2.2.1 ▸ e3, hd.2.2.1 ▸ e4, ?_⟩
    rcases List.mem_append.1 e5 with h | h
    · exact List.mem_cons_of_mem n (List.mem_append_left _ h)
    · rcases List.mem_cons.1 h with he | h
      · exact he ▸ List.mem_cons_self n _
      · exact List.mem_cons_of_mem n (List.mem_append_right _ h)
  · intro m hm
    rw [hidx']
    rcases List.mem_cons.1 hm with rfl | hm
    · exact wf.memIdx m hnL
    · refine wf.memIdx m ?_
      rcases List.mem_append.1 hm with h | h
      · exact List.mem_append_left _ h
      · exact List.mem_append_right _ (List.mem_cons_of_mem n h)
  · rw [hsize', costSum_eq_listCost, hidx',
      listCost_congr st.index (fun p _ => (hdata' p.2).2.2.1)]
    exact wf.sizeEq
  · rw [hsize', hcap']
    exact wf.sizeLe

/-! ### The MakeSpaceFor eviction loop -/

theorem tail_prev_eq {st : CacheState K V} {L : List Nat} (wf : WF st L) :
    ∃ a, (headId :: L).getLast? = some a ∧ (st.heap tailId).previous = some a := by
  have hc : List.Chain' (linkRel st.heap) ((headId :: L) ++ [tailId]) := by
    have he : fullChain L = (headId :: L) ++ [tailId] := by simp [fullChain]
    exact he ▸ wf.chain
  obtain ⟨_, _, hbd⟩ := List.chain'_append.1 hc
  obtain ⟨a, ha⟩ : ∃ a, (headId :: L).getLast? = some a :=
    Option.isSome_iff_exists.1 (List.getLast?_isSome.2 (by simp))
  exact ⟨a, ha, (hbd a ha tailId rfl).2⟩

theorem evictOnce_eq {st : CacheState K V} {m : Nat}
    (h : (st.heap tailId).previous = some m) : evictOnce st = some (applyRemove st m) := by
  unfold evictOnce removeNodeFromTail
  rw [h]
  simp only [Option.map_some']
  rw [applyRemove_eq]
  have h1 := removeNodeFromList_index st m
  have h2 := removeNodeFromList_size st m
  have h3 := (removeNodeFromList_presData st m) m
  rw [h1, h2, h3.1, h3.2.2.1]

theorem index_nil_of_chain_nil {st : CacheState K V} {L : List Nat} (wf : WF st L)
    (hL : L = []) : st.index = [] := by
  cases hidx : st.index with
  | nil => rfl
  | cons p rest =>
    have := (wf.idxMem p (by rw [hidx]; exact List.mem_cons_self p rest)).2.2.2.2
    rw [hL] at this
    cases this

/-- Eviction of the tail-most live entry. -/
theorem wf_evictOnce {st : CacheState K V} {L l' : List Nat} {m : Nat} (wf : WF st L)
    (hdec : L = l' ++ [m]) :
    evictOnce st = some (applyRemove st m) ∧ WF (applyRemove st m) l' ∧
      StepFacts L st (applyRemove st m) ∧
      (applyRemove st m).size = st.size - (st.heap m).size ∧ 1 ≤ (st.heap m).size := by
  have hmL : m ∈ L := by
    rw [hdec]
    exact List.mem_append_right _ (List.mem_singleton_self m)
  obtain ⟨k, hk⟩ := wf.memIdx m hmL
  have hprev : (st.heap tailId).previous = some m := by
    obtain ⟨a, ha, hpr⟩ := tail_prev_eq wf
    have : (headId :: L).getLast? = some m := by
      rw [hdec]
      have : headId :: (l' ++ [m]) = (headId :: l') ++ [m] := by simp
      rw [this, List.getLast?_concat]
    rw [this] at ha
    cases ha
    exact hpr
  have hdec' : L = l' ++ m :: [] := hdec
  obtain ⟨hwf, hsf, _, hsz, _⟩ := wf_removeEntry wf hk hdec'
  have hl' : l' ++ ([] : List Nat) = l' := List.append_nil l'
  refine ⟨evictOnce_eq hprev, hl' ▸ hwf, hsf, hsz, (wf.idxMem _ hk).2.2.1⟩

theorem makeSpaceLoop_stop {st : CacheState K V} {n : Nat} (fuel : Nat)
    (h : ¬u64sub st.capacity st.size < (st.heap n).size) :
    makeSpaceLoop fuel st n = some st := by
  cases fuel <;> simp [makeSpaceLoop, h]

theorem makeSpaceLoop_go {st : CacheState K V} {n : Nat} (fuel : Nat)
    (h : u64sub st.capacity st.size < (st.heap n).size) :
    makeSpaceLoop (fuel + 1) st n = (evictOnce st).bind (fun st1 => makeSpaceLoop fuel st1 n) := by
  simp [makeSpaceLoop, h]

/-- From a well-formed state, the MakeSpaceFor loop terminates within
`L.length` evictions and frees enough space. -/
theorem wf_makeSpaceLoop (fuel : Nat) :
    ∀ {st : CacheState K V} {L : List Nat} {nid : Nat}, WF st L → L.length ≤ fuel →
    (st.heap nid).size ≤ st.capacity →
    ∃ st' L', makeSpaceLoop fuel st nid = some st' ∧ WF st' L' ∧ StepFacts L st st' ∧
      L' ⊆ L ∧ (st'.heap nid).size ≤ u64sub st'.capacity st'.size := by
  induction fuel with
  | zero =>
    intro st L nid wf hlen hsz
    have hL : L = [] := List.length_eq_zero.1 (Nat.le_zero.1 hlen)
    have hidx : st.index = [] := index_nil_of_chain_nil wf hL
    have hsize0 : st.size = 0 := by
      rw [wf.sizeEq, costSum_eq_listCost, hidx]
      rfl
    have hstop : ¬u64sub st.capacity st.size < (st.heap nid).size := by
      rw [hsize0, u64sub_eq (Nat.zero_le _) wf.capLt]
      omega
    exact ⟨st, L, makeSpaceLoop_stop 0 hstop, wf, StepFacts.rfl' L st,
      List.Subset.refl L, by rw [hsize0, u64sub_eq (Nat.zero_le _) wf.capLt]; omega⟩
  | succ f ih =>
    intro st L nid wf hlen hsz
    by_cases hcond : u64sub st.capacity st.size < (st.heap nid).size
    · -- one eviction is needed
      have hspace : st.capacity - st.size < (st.heap nid).size := by
        rw [u64sub_eq wf.sizeLe wf.capLt] at hcond
        exact hcond
      have hszpos : 0 < st.size := by
        rcases Nat.eq_zero_or_pos st.size with h0 | h
        · omega
        · exact h
      have hLne : L ≠ [] := by
        intro hL
        have hidx := index_nil_of_chain_nil wf hL
        have : st.size = 0 := by
          rw [wf.sizeEq, costSum_eq_listCost, hidx]
          rfl
        omega
      obtain ⟨l', m, hdec⟩ : ∃ l' m, L = l' ++ [m] := by
        rcases List.eq_nil_or_concat L with h | ⟨l', m, h⟩
        · exact absurd h hLne
        · exact ⟨l', m, by simpa [List.concat_eq_append] using h⟩
      obtain ⟨hev, hwf1, hsf1, hsz1, hone⟩ := wf_evictOnce wf hdec
      have hlen1 : l'.length ≤ f := by
        have : L.length = l'.length + 1 := by rw [hdec]; simp
        omega
      have hszn : ((applyRemove st m).heap nid).size ≤ (applyRemove st m).capacity := by
        rw [(hsf1.data nid).2.2.1, hsf1.cap]
        exact hsz
      obtain ⟨st', L', hloop, hwf', hsf', hsub', hfree⟩ := ih hwf1 hlen1 hszn
      refine ⟨st', L', ?_, hwf', ?_, ?_, hfree⟩
      · rw [makeSpaceLoop_go f hcond, hev]
        exact hloop
      · refine hsf1.trans hsf' ?_
        rw [hdec]
        exact fun x hx => List.mem_append_left _ hx
      · refine subset_trans hsub' ?_
        rw [hdec]
        exact fun x hx => List.mem_append_left _ hx
    · exact ⟨st, L, makeSpaceLoop_stop (f + 1) hcond, wf, StepFacts.rfl' L st,
        List.Subset.refl L, not_lt.1 hcond⟩

/-- More fuel never changes a successful MakeSpaceFor loop. -/
theorem makeSpaceLoop_mono :
    ∀ (f f' : Nat) {st st' : CacheState K V} {n : Nat}, f ≤ f' →
      makeSpaceLoop f st n = some st' → makeSpaceLoop f' st n = some st'
  | 0, f', st, st', n, hle, h => by
    by_cases hcond : u64sub st.capacity st.size < (st.heap n).size
    · have : makeSpaceLoop 0 st n = none := by simp [makeSpaceLoop, hcond]
      rw [this] at h
      cases h
    · rw [makeSpaceLoop_stop _ hcond] at h ⊢
      exact h
  | f + 1, f' + 1, st, st', n, hle, h => by
    by_cases hcond : u64sub st.capacity st.size < (st.heap n).size
    · rw [makeSpaceLoop_go f hcond] at h
      rw [makeSpaceLoop_go f' hcond]
      cases hev : evictOnce st with
      | none => rw [hev] at h; cases h
      | some st1 =>
        rw [hev] at h
        simp only [Option.some_bind] at h ⊢
        exact makeSpaceLoop_mono f f' (Nat.le_of_succ_le_succ hle) h
    · rw [makeSpaceLoop_stop _ hcond] at h ⊢
      exact h

/-! ### The RemoveExpired purge -/

theorem wf_purgeFold (now : Nat) :
    ∀ (todo : List (K × Nat)) {st : CacheState K V} {L : List Nat},
      WF st L → (∀ p ∈ todo, p ∈ st.index) → (todo.map Prod.fst).Nodup →
      ∃ L', WF (todo.foldl (purgeStep now) st) L' ∧
        StepFacts L st (todo.foldl (purgeStep now) st) ∧ L' ⊆ L := by
  intro todo
  induction todo with
  | nil =>
    intro st L wf _ _
    exact ⟨L, wf, StepFacts.rfl' L st, List.Subset.refl L⟩
  | cons p rest ih =>
    intro st L wf htodo hkeys
    have hp : p ∈ st.index := htodo p (List.mem_cons_self p rest)
    have hkrest : p.1 ∉ rest.map Prod.fst := (List.nodup_cons.1 hkeys).1
    have hkeys' : (rest.map Prod.fst).Nodup := (List.nodup_cons.1 hkeys).2
    rw [List.foldl_cons]
    by_cases hexp : nodeExpired (st.heap p.2) now = true
    · have hstep : purgeStep now st p = applyRemove st p.2 := by
        simp [purgeStep, hexp]
      have hp' : (p.1, p.2) ∈ st.index := by simpa using hp
      have hmL : p.2 ∈ L := (wf.idxMem p hp).2.2.2.2
      obtain ⟨l1, l2, hdec⟩ := List.append_of_mem hmL
      obtain ⟨hwf1, hsf1, hidx1, _, _⟩ := wf_removeEntry wf hp' hdec
      have hsubL : l1 ++ l2 ⊆ L := by
        rw [hdec]
        intro x hx
        rcases List.mem_append.1 hx with h | h
        · exact List.mem_append_left _ h
        · exact List.mem_append_right _ (List.mem_cons_of_mem p.2 h)
      have hrest : ∀ q ∈ rest, q ∈ (applyRemove st p.2).index := by
        intro q hq
        rw [hidx1]
        refine mem_idxDelete.2 ⟨htodo q (List.mem_cons_of_mem p hq), ?_⟩
        intro he
        exact hkrest (he ▸ List.mem_map_of_mem Prod.fst hq)
      obtain ⟨L', hwf', hsf', hsub'⟩ := ih hwf1 hrest hkeys'
      rw [hstep]
      exact ⟨L', hwf', hsf1.trans hsf' hsubL, subset_trans hsub' hsubL⟩
    · have hstep : purgeStep now st p = st := by
        simp [purgeStep, hexp]
      rw [hstep]
      exact ih wf (fun q hq => htodo q (List.mem_cons_of_mem p hq)) hkeys'

theorem wf_applyRemoveExpired {st : CacheState K V} {L : List Nat} (wf : WF st L)
    (now : Nat) :
    ∃ L', WF (applyRemoveExpired st now) L' ∧
      StepFacts L st (applyRemoveExpired st now) ∧ L' ⊆ L :=
  wf_purgeFold now st.index wf (fun _ hp => hp) wf.keysNodup

/-! ### Linking a fresh node after registration in the index -/

theorem wf_linkFresh {st : CacheState K V} {L : List Nat} (wf : WF st L)
    {nid : Nat} {k : K} (hfree : ∀ p ∈ st.index, p.1 ≠ k)
    (hnidL : nid ∉ L) (hnid0 : nid ≠ headId) (hnid1 : nid ≠ tailId)
    (hnidLt : nid < st.nextId)
    (hprev : (st.heap nid).previous = none)
    (hdel : (st.heap nid).deleted = false)
    (hsz1 : 1 ≤ (st.heap nid).size) (hszU : (st.heap nid).size < U64)
    (hkey : (st.heap nid).key = k)
    (hcap : st.size + (st.heap nid).size ≤ st.capacity) :
    ∃ st', applyAddToFront
        { st with index := idxInsert st.index k nid, size := u64add st.size (st.heap nid).size }
        nid = some st' ∧ WF st' (nid :: L) ∧
      st'.index = idxInsert st.index k nid ∧
      presData st.heap st'.heap ∧
      st'.size = st.size + (st.heap nid).size ∧ st'.capacity = st.capacity ∧
      st'.nextId = st.nextId ∧ (∀ j, (st'.heap j).deleted = (st.heap j).deleted) := by
  obtain ⟨y, rest, hyr⟩ : ∃ y rest, L ++ [tailId] = y :: rest := by
    cases hcase : L ++ [tailId] with
    | nil => simp at hcase
    | cons y rest => exact ⟨y, rest, rfl⟩
  have hfc : fullChain L = headId :: y :: rest := by
    show headId :: (L ++ [tailId]) = headId :: y :: rest
    rw [hyr]
  have hchain0 : List.Chain' (linkRel st.heap) (headId :: y :: rest) := hfc ▸ wf.chain
  have hndc : (headId :: y :: rest).Nodup := hfc ▸ wf.full_nodup
  have hnmem : nid ∉ headId :: y :: rest := by
    intro hmem'
    rcases List.mem_cons.1 hmem' with he | hmem'
    · exact hnid0 he
    · rw [← hyr] at hmem'
      rcases List.mem_append.1 hmem' with h | h
      · exact hnidL h
      · exact hnid1 (by simpa using h)
  have hheadnext : (st.heap headId).next = some y := (List.chain'_cons.1 hchain0).1.1
  have hchain3 := chain_link hnmem hndc hchain0
  set stm : CacheState K V :=
    { st with index := idxInsert st.index k nid, size := u64add st.size (st.heap nid).size }
    with hstm
  have hstep : applyAddToFront stm nid = some (addNodeBetween stm nid headId y) := by
    unfold applyAddToFront addNodeToHead
    have h1 : (stm.heap nid).deleted = false := hdel
    have h2 : (stm.heap nid).previous = none := hprev
    rw [h1]
    simp only [Bool.false_eq_true, if_false]
    rw [h2]
    simp only [Option.isSome_none, Bool.false_eq_true, if_false]
    have h3 : (stm.heap headId).next = some y := hheadnext
    rw [h3]
  set st' := addNodeBetween stm nid headId y with hst'
  have hheap' : st'.heap = addBetweenHeap st.heap nid headId y := rfl
  have hidx' : st'.index = idxInsert st.index k nid := rfl
  have hszadd : st.size + (st.heap nid).size < U64 :=
    lt_of_le_of_lt hcap wf.capLt
  have hsize' : st'.size = st.size + (st.heap nid).size := u64add_eq hszadd
  have hcap' : st'.capacity = st.capacity := rfl
  have hnid' : st'.nextId = st.nextId := rfl
  have hdata' : presData st.heap st'.heap := by
    rw [hheap']
    intro j
    simp [addBetweenHeap]
  have hdel' : ∀ j, (st'.heap j).deleted = (st.heap j).deleted := by
    intro j
    rw [hheap']
    simp [addBetweenHeap]
  have hy0 : y ≠ headId := by
    intro he
    exact (List.nodup_cons.1 hndc).1 (he ▸ List.mem_cons_self y rest)
  have hidxeq : idxInsert st.index k nid = (k, nid) :: st.index := by
    unfold idxInsert
    rw [idxDelete_of_forall_ne hfree]
  refine ⟨st', hstep, ?_, hidx', hdata', hsize', hcap', hnid', hdel'⟩
  refine ⟨hcap' ▸ wf.capLt, hnid' ▸ wf.nid2, ?_, ?_, ?_, ?_, ?_, ?_, ?_, ?_, ?_, ?_, ?_⟩
  · intro m hm
    rw [hnid']
    rcases List.mem_cons.1 hm with rfl | hm
    · exact hnidLt
    · exact wf.chainLt m hm
  · exact List.nodup_cons.2 ⟨hnidL, wf.chainNodup⟩
  · intro m hm
    rcases List.mem_cons.1 hm with rfl | hm
    · exact ⟨hnid0, hnid1⟩
    · exact wf.chainSent m hm
  · rw [hheap']
    have h0y : headId ≠ y := Ne.symm hy0
    have h0n : headId ≠ nid := Ne.symm hnid0
    simp [addBetweenHeap, setPrevF_previous, h0y, h0n, wf.headPrev]
  · rw [hheap']
    have h1n : tailId ≠ nid := Ne.symm hnid1
    have h10 : tailId ≠ headId := by simp [headId, tailId]
    simp [addBetweenHeap, setNextF_next, h1n, h10, wf.tailNext]
  · have hfc' : fullChain (nid :: L) = headId :: nid :: y :: rest := by
      show headId :: (nid :: L ++ [tailId]) = headId :: nid :: y :: rest
      rw [List.cons_append, hyr]
    rw [hfc', hheap']
    exact hchain3
  · rw [hidx', hidxeq]
    refine List.nodup_cons.2 ⟨?_, wf.keysNodup⟩
    intro hmem'
    obtain ⟨p, hpmem, hpk⟩ := List.mem_map.1 hmem'
    exact hfree p hpmem hpk
  · intro p hp
    rw [hidx', hidxeq] at hp
    rcases List.mem_cons.1 hp with rfl | hp
    · have hd := hdata' nid
      exact ⟨hd.1.trans hkey, (hdel' nid).trans hdel, hd.2.2.1 ▸ hsz1, hd.2.2.1 ▸ hszU,
        List.mem_cons_self nid L⟩
    · obtain ⟨e1, e2, e3, e4, e5⟩ := wf.idxMem p hp
      have hd := hdata' p.2
      exact ⟨hd.1.trans e1, (hdel' p.2).trans e2, hd.2.2.1 ▸ e3, hd.2.2.1 ▸ e4,
        List.mem_cons_of_mem nid e5⟩
  · intro m hm
    rw [hidx', hidxeq]
    rcases List.mem_cons.1 hm with rfl | hm
    · exact ⟨k, List.mem_cons_self _ _⟩
    · obtain ⟨k', hk'⟩ := wf.memIdx m hm
      exact ⟨k', List.mem_cons_of_mem _ hk'⟩
  · rw [hsize', costSum_eq_listCost st', hidx', hidxeq, listCost_cons]
    have : listCost st'.heap st.index = listCost st.heap st.index :=
      listCost_congr st.index (fun p _ => (hdata' p.2).2.2.1)
    rw [this, (hdata' nid).2.2.1, ← costSum_eq_listCost st, ← wf.sizeEq]
    omega
  · rw [hsize', hcap']
    exact hcap

/-! ### The Set operation -/

theorem idxLookup_idxInsert_self (l : List (K × Nat)) (k : K) (n : Nat) :
    idxLookup (idxInsert l k n) k = some n := by
  simp [idxLookup, idxInsert, List.find?_cons]

theorem setF_unfold {st : CacheState K V} (fuel : Nat) (k : K) (v : V) (size0 : Nat)
    (expires : Option Nat) (now : Nat) (pf : Bool)
    (h0 : ¬size0 % U64 = 0) (h1 : ¬st.capacity < size0 % U64)
    (h2 : (match expires with | some e => decide (e < now) | none => false) = false) :
    setWithSizeAndExpiry fuel st k v size0 expires now pf =
      (admitStage fuel (removeOld (allocNode st k v (size0 % U64) expires) k)
          st.nextId (size0 % U64) now pf).bind
        (fun st4 => (register st4 k st.nextId (size0 % U64)).map Except.ok) := by
  simp only [setWithSizeAndExpiry]
  rw [if_neg h0, if_neg h1, h2]
  simp only [Bool.false_eq_true, if_false]
  rfl

theorem setF_error_small {st : CacheState K V} (fuel : Nat) (k : K) (v : V) (size0 : Nat)
    (expires : Option Nat) (now : Nat) (pf : Bool) (h : size0 % U64 = 0) :
    setWithSizeAndExpiry fuel st k v size0 expires now pf = some (.error .itemTooSmall) := by
  simp only [setWithSizeAndExpiry]
  rw [if_pos h]

theorem setF_error_big {st : CacheState K V} (fuel : Nat) (k : K) (v : V) (size0 : Nat)
    (expires : Option Nat) (now : Nat) (pf : Bool)
    (h0 : ¬size0 % U64 = 0) (h : st.capacity < size0 % U64) :
    setWithSizeAndExpiry fuel st k v size0 expires now pf = some (.error .itemTooBig) := by
  simp only [setWithSizeAndExpiry]
  rw [if_neg h0, if_pos h]

theorem setF_error_expiry {st : CacheState K V} (fuel : Nat) (k : K) (v : V) (size0 : Nat)
    (expires : Option Nat) (now : Nat) (pf : Bool)
    (h0 : ¬size0 % U64 = 0) (h1 : ¬st.capacity < size0 % U64)
    (h2 : (match expires with | some e => decide (e < now) | none => false) = true) :
    setWithSizeAndExpiry fuel st k v size0 expires now pf = some (.error .pastExpiry) := by
  simp only [setWithSizeAndExpiry]
  rw [if_neg h0, if_neg h1, h2]
  simp only [if_true]

theorem wf_alloc {st : CacheState K V} {L : List Nat} (wf : WF st L) (k : K) (v : V)
    (sz : Nat) (expires : Option Nat) : WF (allocNode st k v sz expires) L := by
  have hne : ∀ x ∈ fullChain L, x ≠ st.nextId := by
    intro x hx
    rcases mem_fullChain.1 hx with rfl | hx | rfl
    · have := wf.nid2
      simp only [headId]
      omega
    · exact Nat.ne_of_lt (wf.chainLt x hx)
    · have := wf.nid2
      simp only [tailId]
      omega
  have hidxne : ∀ p ∈ st.index, p.2 ≠ st.nextId := by
    intro p hp
    exact Nat.ne_of_lt (wf.chainLt p.2 (wf.idxMem p hp).2.2.2.2)
  have hheap : ∀ j, j ≠ st.nextId → (allocNode st k v sz expires).heap j = st.heap j := by
    intro j hj
    exact writeNode_other st.heap _ hj
  refine ⟨wf.capLt, le_trans wf.nid2 (Nat.le_succ _), ?_, wf.chainNodup, wf.chainSent,
    ?_, ?_, ?_, wf.keysNodup, ?_, wf.memIdx, ?_, wf.sizeLe⟩
  · intro m hm
    exact lt_trans (wf.chainLt m hm) (Nat.lt_succ_self _)
  · rw [hheap headId (hne headId (mem_fullChain.2 (Or.inl rfl)))]
    exact wf.headPrev
  · rw [hheap tailId (hne tailId (mem_fullChain.2 (Or.inr (Or.inr rfl))))]
    exact wf.tailNext
  · refine chain_congr (fullChain L) ?_ ?_ wf.chain
    · intro x hx
      rw [hheap x (hne x (List.mem_of_mem_dropLast hx))]
    · intro x hx
      rw [hheap x (hne x (List.mem_of_mem_tail hx))]
  · intro p hp
    rw [hheap p.2 (hidxne p hp)]
    exact wf.idxMem p hp
  · show st.size = costSum (allocNode st k v sz expires)
    rw [costSum_eq_listCost]
    have : listCost (allocNode st k v sz expires).heap st.index = listCost st.heap st.index :=
      listCost_congr st.index (fun p hp => by rw [hheap p.2 (hidxne p hp)])
    show st.size = listCost _ st.index
    rw [this]
    exact wf.sizeEq

/-- A validated Set succeeds and preserves well-formedness: the new node is
allocated at `st.nextId`, registered under `k`, and linked at the front. -/
theorem wf_set {st : CacheState K V} {L : List Nat} (wf : WF st L)
    {fuel : Nat} (hfuel : st.index.length ≤ fuel)
    (k : K) (v : V) (size0 : Nat) (expires : Option Nat) (now : Nat) (pf : Bool)
    (h0 : ¬size0 % U64 = 0) (h1 : ¬st.capacity < size0 % U64)
    (h2 : (match expires with | some e => decide (e < now) | none => false) = false) :
    ∃ st' L', setWithSizeAndExpiry fuel st k v size0 expires now pf = some (.ok st') ∧
      WF st' (st.nextId :: L') ∧ L' ⊆ L ∧ st'.capacity = st.capacity ∧
      idxLookup st'.index k = some st.nextId ∧
      (st'.heap st.nextId).value = v ∧ (st'.heap st.nextId).expires = expires ∧
      (st'.heap st.nextId).size = size0 % U64 ∧
      (st'.heap st.nextId).deleted = false := by
  have hnidh : st.nextId ≠ headId := by
    have := wf.nid2
    simp only [headId]
    omega
  have hnidt : st.nextId ≠ tailId := by
    have := wf.nid2
    simp only [tailId]
    omega
  have hnidL : st.nextId ∉ L := fun h => Nat.lt_irrefl _ (wf.chainLt _ h)
  have hnidF : st.nextId ∉ fullChain L := by
    intro h
    rcases mem_fullChain.1 h with he | he | he
    · exact hnidh he
    · exact hnidL he
    · exact hnidt he
  rw [setF_unfold fuel k v size0 expires now pf h0 h1 h2]
  set st1 : CacheState K V := allocNode st k v (size0 % U64) expires with hst1
  have hwf1 : WF st1 L := wf_alloc wf k v (size0 % U64) expires
  have hnd1 : st1.heap st.nextId =
      { expires := expires, size := size0 % U64, previous := none, next := none,
        key := k, value := v, deleted := false } := writeNode_same _ _ _
  have hidx1 : st1.index = st.index := rfl
  have hnid1 : st1.nextId = st.nextId + 1 := rfl
  have hcap1 : st1.capacity = st.capacity := rfl
  set st2 : CacheState K V := removeOld st1 k with hst2
  obtain ⟨L2, hwf2, hsf2, hsub2, hfree2⟩ :
      ∃ L2, WF st2 L2 ∧ StepFacts L st1 st2 ∧ L2 ⊆ L ∧ ∀ p ∈ st2.index, p.1 ≠ k := by
    rw [hst2]
    unfold removeOld
    cases hlk : idxLookup st1.index k with
    | none =>
      exact ⟨L, hwf1, StepFacts.rfl' L st1, List.Subset.refl L, idxLookup_eq_none_iff.1 hlk⟩
    | some existing =>
      have hmem := mem_of_idxLookup hlk
      have hmL : existing ∈ L := (hwf1.idxMem _ hmem).2.2.2.2
      obtain ⟨l1, l2, hdec⟩ := List.append_of_mem hmL
      obtain ⟨hwfr, hsfr, hidxr, _, _⟩ := wf_removeEntry hwf1 hmem hdec
      refine ⟨l1 ++ l2, hwfr, hsfr, ?_, ?_⟩
      · rw [hdec]
        intro x hx
        rcases List.mem_append.1 hx with h | h
        · exact List.mem_append_left _ h
        · exact List.mem_append_right _ (List.mem_cons_of_mem existing h)
      · rw [hidxr]
        intro p hp
        exact (mem_idxDelete.1 hp).2
  have hkey2 : (st2.heap st.nextId).key = k := by
    rw [(hsf2.data st.nextId).1, hnd1]
  have hval2 : (st2.heap st.nextId).value = v := by
    rw [(hsf2.data st.nextId).2.1, hnd1]
  have hsz2 : (st2.heap st.nextId).size = size0 % U64 := by
    rw [(hsf2.data st.nextId).2.2.1, hnd1]
  have hexp2 : (st2.heap st.nextId).expires = expires := by
    rw [(hsf2.data st.nextId).2.2.2, hnd1]
  have hprev2 : (st2.heap st.nextId).previous = none := by
    rw [(hsf2.links st.nextId hnidF).1, hnd1]
  have hdel2 : (st2.heap st.nextId).deleted = false := by
    rw [hsf2.del st.nextId hnidL, hnd1]
  obtain ⟨st4, L4, hAdmStage, hwf4, hsf4, hsub4, hsubidx4, hspace4⟩ :
      ∃ st4 L4, admitStage fuel st2 st.nextId (size0 % U64) now pf = some st4 ∧ WF st4 L4 ∧
        StepFacts L st1 st4 ∧ L4 ⊆ L ∧ st4.index.Sublist st2.index ∧
        size0 % U64 ≤ u64sub st4.capacity st4.size := by
    unfold admitStage
    by_cases hsp : u64sub st2.capacity st2.size < size0 % U64
    · rw [if_pos hsp]
      obtain ⟨L3, hwf3, hsf3, hsub3⟩ :
          ∃ L3, WF (if pf then applyRemoveExpired st2 now else st2) L3 ∧
            StepFacts L2 st2 (if pf then applyRemoveExpired st2 now else st2) ∧ L3 ⊆ L2 := by
        cases pf with
        | true => exact wf_applyRemoveExpired hwf2 now
        | false => exact ⟨L2, hwf2, StepFacts.rfl' L2 st2, List.Subset.refl L2⟩
      set st3 := if pf then applyRemoveExpired st2 now else st2 with hst3
      have hsz3 : (st3.heap st.nextId).size = size0 % U64 := by
        rw [(hsf3.data st.nextId).2.2.1, hsz2]
      have hszcap3 : (st3.heap st.nextId).size ≤ st3.capacity := by
        rw [hsz3, hsf3.cap, hsf2.cap, hcap1]
        omega
      have hlen3 : L3.length ≤ fuel := by
        have e1 : L3.length = st3.index.length := hwf3.length_eq
        have e2 : st3.index.length ≤ st2.index.length := hsf3.sub.length_le
        have e3 : st2.index.length ≤ st1.index.length := hsf2.sub.length_le
        rw [hidx1] at e3
        omega
      obtain ⟨st4, L4, hloop, hwf4, hsf4', hsub4', hfree'⟩ :=
        wf_makeSpaceLoop fuel hwf3 hlen3 hszcap3
      have hsz4 : (st4.heap st.nextId).size = size0 % U64 := by
        rw [(hsf4'.data st.nextId).2.2.1, hsz3]
      refine ⟨st4, L4, hloop, hwf4, ?_, ?_, ?_, ?_⟩
      · exact (hsf2.trans hsf3 hsub2).trans hsf4' (subset_trans hsub3 hsub2)
      · exact subset_trans hsub4' (subset_trans hsub3 hsub2)
      · exact hsf4'.sub.trans hsf3.sub
      · rw [← hsz4]
        exact hfree'
    · rw [if_neg hsp]
      exact ⟨st2, L2, rfl, hwf2, hsf2, hsub2, List.Sublist.refl _, not_lt.1 hsp⟩
  have hfree4 : ∀ p ∈ st4.index, p.1 ≠ k := fun p hp => hfree2 p (hsubidx4.subset hp)
  have hkey4 : (st4.heap st.nextId).key = k := by
    rw [(hsf4.data st.nextId).1, hnd1]
  have hval4 : (st4.heap st.nextId).value = v := by
    rw [(hsf4.data st.nextId).2.1, hnd1]
  have hsz4 : (st4.heap st.nextId).size = size0 % U64 := by
    rw [(hsf4.data st.nextId).2.2.1, hnd1]
  have hexp4 : (st4.heap st.nextId).expires = expires := by
    rw [(hsf4.data st.nextId).2.2.2, hnd1]
  have hprev4 : (st4.heap st.nextId).previous = none := by
    rw [(hsf4.links st.nextId hnidF).1, hnd1]
  have hdel4 : (st4.heap st.nextId).deleted = false := by
    rw [hsf4.del st.nextId hnidL, hnd1]
  have hnidL4 : st.nextId ∉ L4 := fun h => hnidL (hsub4 h)
  have hnidLt4 : st.nextId < st4.nextId := by
    rw [hsf4.nid, hnid1]
    exact Nat.lt_succ_self _
  have hone4 : 1 ≤ (st4.heap st.nextId).size := by
    rw [hsz4]
    omega
  have hU4 : (st4.heap st.nextId).size < U64 := by
    rw [hsz4]
    exact Nat.mod_lt _ U64_pos
  have hcap4 : st4.size + (st4.heap st.nextId).size ≤ st4.capacity := by
    have := u64sub_eq hwf4.sizeLe hwf4.capLt
    rw [this] at hspace4
    rw [hsz4]
    omega
  obtain ⟨st6, hlink, hwf6, hidx6, hdata6, hsize6, hcap6, hnid6, hdel6⟩ :=
    wf_linkFresh hwf4 hfree4 hnidL4 hnidh hnidt hnidLt4 hprev4 hdel4 hone4 hU4 hkey4 hcap4
  have hreg : register st4 k st.nextId (size0 % U64) = some st6 := by
    unfold register
    rw [← hsz4]
    exact hlink
  refine ⟨st6, L4, ?_, hwf6, hsub4, ?_, ?_, ?_, ?_, ?_, ?_⟩
  · rw [hAdmStage]
    simp only [Option.some_bind]
    rw [hreg]
    rfl
  · rw [hcap6, hsf4.cap, hcap1]
  · rw [hidx6]
    exact idxLookup_idxInsert_self st4.index k st.nextId
  · rw [(hdata6 st.nextId).2.1, hval4]
  · rw [(hdata6 st.nextId).2.2.2, hexp4]
  · rw [(hdata6 st.nextId).2.2.1, hsz4]
  · rw [hdel6 st.nextId, hdel4]

/-! ### Get, Delete, and operation sequences -/

theorem wf_get {st : CacheState K V} {L : List Nat} (wf : WF st L) (k : K) (now : Nat) :
    ∃ r, getOp st k now = some r ∧ ∃ L', WF r.1 L' := by
  unfold getOp
  cases hlk : idxLookup st.index k with
  | none => exact ⟨(st, default, false), rfl, L, wf⟩
  | some n =>
    by_cases hexp : nodeExpired (st.heap n) now = true
    · refine ⟨(st, default, false), ?_, L, wf⟩
      simp [hexp]
    · have hmem := mem_of_idxLookup hlk
      have hdel : (st.heap n).deleted = false := (wf.idxMem _ hmem).2.1
      have hnL : n ∈ L := (wf.idxMem _ hmem).2.2.2.2
      obtain ⟨st', hstep, l1, l2, hdec, hwf', _⟩ := wf_touch wf hnL
      have haf : applyAddToFront st n = some st' := by
        unfold applyAddToFront
        rw [hdel]
        simpa using hstep
      refine ⟨(st', (st.heap n).value, true), ?_, n :: (l1 ++ l2), hwf'⟩
      simp [hexp, haf]

theorem wf_delete {st : CacheState K V} {L : List Nat} (wf : WF st L) (k : K) :
    ∃ L', WF (deleteOp st k) L' := by
  unfold deleteOp
  cases hlk : idxLookup st.index k with
  | none => exact ⟨L, wf⟩
  | some n =>
    have hmem := mem_of_idxLookup hlk
    have hnL : n ∈ L := (wf.idxMem _ hmem).2.2.2.2
    obtain ⟨l1, l2, hdec⟩ := List.append_of_mem hnL
    exact ⟨l1 ++ l2, (wf_removeEntry wf hmem hdec).1⟩

theorem wf_applyOp {st : CacheState K V} {L : List Nat} (wf : WF st L) (pf : Bool)
    (op : CacheOp K V) :
    ∃ st', applyOp st pf op = some st' ∧ ∃ L', WF st' L' := by
  cases op with
  | set k v sz exp now =>
    simp only [applyOp]
    by_cases h0 : sz % U64 = 0
    · rw [setF_error_small _ _ _ _ _ _ _ h0]
      exact ⟨st, rfl, L, wf⟩
    · by_cases h1 : st.capacity < sz % U64
      · rw [setF_error_big _ _ _ _ _ _ _ h0 h1]
        exact ⟨st, rfl, L, wf⟩
      · cases hm : (match exp with | some e => decide (e < now) | none => false) with
        | true =>
          rw [setF_error_expiry _ _ _ _ _ _ _ h0 h1 hm]
          exact ⟨st, rfl, L, wf⟩
        | false =>
          obtain ⟨st', L', heq, hwf', _⟩ :=
            wf_set wf (le_refl st.index.length) k v sz exp now pf h0 h1 hm
          rw [heq]
          exact ⟨st', rfl, st.nextId :: L', hwf'⟩
  | get k now =>
    simp only [applyOp]
    obtain ⟨r, hr, L', hwf'⟩ := wf_get wf k now
    rw [hr]
    exact ⟨r.1, rfl, L', hwf'⟩
  | del k =>
    obtain ⟨L', hwf'⟩ := wf_delete wf k
    exact ⟨deleteOp st k, rfl, L', hwf'⟩

theorem wf_runOps {pf : Bool} :
    ∀ (ops : List (CacheOp K V)) {st : CacheState K V} {L : List Nat}, WF st L →
    ∃ st', runOps st pf ops = some st' ∧ ∃ L', WF st' L' := by
  intro ops
  induction ops with
  | nil =>
    intro st L wf
    exact ⟨st, rfl, L, wf⟩
  | cons op rest ih =>
    intro st L wf
    obtain ⟨st1, h1, L1, hwf1⟩ := wf_applyOp wf pf op
    obtain ⟨st', h', L', hwf'⟩ := ih hwf1
    refine ⟨st', ?_, L', hwf'⟩
    rw [runOps, h1]
    simpa using h'

/-! ### Helper lemmas for the claims -/

theorem evictIter_succ (m : Nat) (st : CacheState K V) :
    evictIter (m + 1) st = (evictOnce st).bind (evictIter m) := rfl

/-- The MakeSpaceFor loop is exactly the minimal number of tail evictions:
each performed eviction happened while space was still insufficient, and the
loop stops as soon as space suffices. -/
theorem makeSpaceLoop_minimal :
    ∀ (fuel : Nat) {st st' : CacheState K V} {n : Nat},
      makeSpaceLoop fuel st n = some st' →
      ∃ m, evictIter m st = some st' ∧
        ¬u64sub st'.capacity st'.size < (st'.heap n).size ∧
        ∀ i < m, ∃ sti, evictIter i st = some sti ∧
          u64sub sti.capacity sti.size < (sti.heap n).size := by
  intro fuel
  induction fuel with
  | zero =>
    intro st st' n h
    by_cases hc : u64sub st.capacity st.size < (st.heap n).size
    · have : makeSpaceLoop 0 st n = none := by simp [makeSpaceLoop, hc]
      rw [this] at h
      cases h
    · rw [makeSpaceLoop_stop 0 hc] at h
      cases h
      exact ⟨0, rfl, hc, fun i hi => absurd hi (Nat.not_lt_zero i)⟩
  | succ f ih =>
    intro st st' n h
    by_cases hc : u64sub st.capacity st.size < (st.heap n).size
    · rw [makeSpaceLoop_go f hc] at h
      cases hev : evictOnce st with
      | none => rw [hev] at h; cases h
      | some st1 =>
        rw [hev] at h
        simp only [Option.some_bind] at h
        obtain ⟨m1, hiter, hstop, hall⟩ := ih h
        refine ⟨m1 + 1, ?_, hstop, ?_⟩
        · rw [evictIter_succ, hev]
          simpa using hiter
        · intro i hi
          cases i with
          | zero => exact ⟨st, rfl, hc⟩
          | succ j =>
            obtain ⟨stj, hj, hcj⟩ := hall j (Nat.lt_of_succ_lt_succ hi)
            refine ⟨stj, ?_, hcj⟩
            rw [evictIter_succ, hev]
            simpa using hj
    · rw [makeSpaceLoop_stop _ hc] at h
      cases h
      exact ⟨0, rfl, hc, fun i hi => absurd hi (Nat.not_lt_zero i)⟩

theorem idxLookup_isSome_iff {l : List (K × Nat)} {k : K} :
    (∃ n, idxLookup l k = some n) ↔ k ∈ l.map Prod.fst := by
  constructor
  · rintro ⟨n, h⟩
    exact List.mem_map_of_mem Prod.fst (mem_of_idxLookup h)
  · intro h
    obtain ⟨p, hp, he⟩ := List.mem_map.1 h
    have hs : (l.find? (fun q => decide (q.1 = k))).isSome := by
      rw [List.find?_isSome]
      exact ⟨p, hp, by simp [he]⟩
    obtain ⟨q, hq⟩ := Option.isSome_iff_exists.1 hs
    exact ⟨q.2, by simp [idxLookup, hq]⟩

theorem expiredCond_true_iff (exp : Option Nat) (now : Nat) :
    (match exp with | some e => decide (e < now) | none => false) = true ↔
      ∃ e, exp = some e ∧ e < now := by
  cases exp <;> simp

theorem setF_no_error {st : CacheState K V} (fuel : Nat) (k : K) (v : V) (size0 : Nat)
    (expires : Option Nat) (now : Nat) (pf : Bool)
    (h0 : ¬size0 % U64 = 0) (h1 : ¬st.capacity < size0 % U64)
    (h2 : (match expires with | some e => decide (e < now) | none => false) = false)
    (err : SetError) :
    setWithSizeAndExpiry fuel st k v size0 expires now pf ≠ some (.error err) := by
  rw [setF_unfold fuel k v size0 expires now pf h0 h1 h2]
  intro hcontra
  cases hadm : admitStage fuel (removeOld (allocNode st k v (size0 % U64) expires) k)
      st.nextId (size0 % U64) now pf with
  | none => rw [hadm] at hcontra; cases hcontra
  | some st4 =>
    rw [hadm] at hcontra
    simp only [Option.some_bind] at hcontra
    cases hreg : register st4 k st.nextId (size0 % U64) with
    | none => rw [hreg] at hcontra; cases hcontra
    | some st6 =>
      rw [hreg] at hcontra
      simp at hcontra

end Lemmas

/-! ### The claims -/

/-- C5: Processing an AddToFront (touch) event for a tombstoned entry is a
no-op: the event processor returns the state unchanged, so an entry that was
removed (deleted, evicted, or purged) after a touch was enqueued but before
the touch is processed is never relinked into the recency list and never
reappears in the cache. -/
theorem c5_tombstoned_touch_noop (K V : Type) [DecidableEq K] [Inhabited K] [Inhabited V]
    (fuel : Nat) (st : CacheState K V) (now n : Nat)
    (h : (st.heap n).deleted = true) :
    processEvent fuel st now (.addToFront n) = some st := by
  simp [processEvent, applyAddToFront, h]

theorem c5_witness :
    (c5Base.heap 2).deleted = true ∧ processEvent 0 c5Base 0 (.addToFront 2) = some c5Base :=
  ⟨by decide, c5_tombstoned_touch_noop Nat Nat 0 c5Base 0 2 (by decide)⟩

/-- C7: For a key present in the index whose expiry instant is set and in the
past, Get reports not-found (zero value, false) with the state completely
unchanged: the entry is not removed (it remains in the index and list) and no
touch event is issued. -/
theorem c7_lazy_expiry (K V : Type) [DecidableEq K] [Inhabited K] [Inhabited V]
    (st : CacheState K V) (k : K) (n e now : Nat)
    (hlk : idxLookup st.index k = some n)
    (hexp : (st.heap n).expires = some e) (hlt : e < now) :
    getOp st k now = some (st, default, false) ∧ idxLookup st.index k = some n := by
  refine ⟨?_, hlk⟩
  unfold getOp
  rw [hlk]
  have hex : nodeExpired (st.heap n) now = true := by
    simp [nodeExpired, hexp, hlt]
  simp [hex]

theorem c7_witness :
    getOp c7Base 1 10 = some (c7Base, default, false) ∧ idxLookup c7Base.index 1 = some 2 :=
  c7_lazy_expiry Nat Nat c7Base 1 2 5 10 (by decide) (by decide) (by decide)

/-- C4: Delete always succeeds: on an absent key it is an identity no-op on
the cache state; on a present key the entry is removed so that any subsequent
Get of that key reports not-found — with the touch path guarded by the
tombstone, so this holds regardless of the touch-buffer configuration. -/
theorem c4_delete_semantics :
    (∀ (K V : Type) [DecidableEq K] [Inhabited K] [Inhabited V]
      (st : CacheState K V) (k : K),
      idxLookup st.index k = none → deleteOp st k = st) ∧
    (∀ (K V : Type) [DecidableEq K] [Inhabited K] [Inhabited V]
      (st : CacheState K V) (L : List Nat) (k : K) (now : Nat), WF st L →
      getOp (deleteOp st k) k now = some (deleteOp st k, default, false)) := by
  constructor
  · intro K V _ _ _ st k h
    unfold deleteOp
    rw [h]
  · intro K V _ _ _ st L k now wf
    have hnone : idxLookup (deleteOp st k).index k = none := by
      unfold deleteOp
      cases hlk : idxLookup st.index k with
      | none => exact hlk
      | some n =>
        have hmem := mem_of_idxLookup hlk
        have hkey : (st.heap n).key = k := (wf.idxMem _ hmem).1
        have hidx : (applyRemove st n).index = idxDelete st.index k := by
          rw [applyRemove_eq, hkey]
        rw [hidx]
        exact idxLookup_idxDelete_self st.index k
    unfold getOp
    rw [hnone]

theorem c4_witness :
    (idxLookup (newCache 5 : CacheState Nat Nat).index 3 = none ∧
      deleteOp (newCache 5 : CacheState Nat Nat) 3 = newCache 5) ∧
    getOp (deleteOp (newCache 5 : CacheState Nat Nat) 3) 3 0 =
      some (deleteOp (newCache 5) 3, default, false) :=
  ⟨⟨by decide, c4_delete_semantics.1 Nat Nat (newCache 5) 3 (by decide)⟩,
    c4_delete_semantics.2 Nat Nat (newCache 5) [] 3 0 (wf_newCache 5)⟩

/-- C9: The two event-processor implementations are not observationally
equivalent.  For the events Remove(e) then AddToFront(e) on a one-entry cache,
the tombstone-based processor of internal.go leaves the entry unlinked
(head.next = tail) and tombstoned, while the pooling-based variant relinks the
reclaimed node right after head; the resulting list heads differ. -/
theorem c9_processors_diverge :
    (processEvent 0 c9Base 0 (.remove 2)).bind
        (fun s => processEvent 0 s 0 (.addToFront 2)) = some c9Tomb ∧
    (processEventPool 0 c9Base 0 (.remove 2)).bind
        (fun s => processEventPool 0 s 0 (.addToFront 2)) = some c9Pool ∧
    (c9Tomb.heap headId).next = some tailId ∧
    idxLookup c9Tomb.index 1 = none ∧
    (c9Tomb.heap 2).deleted = true ∧
    (c9Pool.heap headId).next = some 2 ∧
    (c9Pool.heap 2).next = some tailId ∧
    (c9Tomb.heap headId).next ≠ (c9Pool.heap headId).next :=
  ⟨rfl, rfl, by decide, by decide, by decide, by decide, by decide, by decide⟩

/-- C2: After every sequence of set, get and delete operations (run with the
MakeSpaceFor loop fuelled by the entry count, shown sufficient), the size
equals the sum of the costs of the entries currently in the index,
entryCount equals the number of keys currently in the index, and size is at
most capacity.  Since every prefix of a sequence is itself a sequence, this
bounds the state observable between operations. -/
theorem c2_size_accounting (K V : Type) [DecidableEq K] [Inhabited K] [Inhabited V]
    (st st' : CacheState K V) (L : List Nat) (pf : Bool) (ops : List (CacheOp K V))
    (wf : WF st L) (h : runOps st pf ops = some st') :
    entryCount st' = st'.index.length ∧ st'.size = costSum st' ∧
      st'.size ≤ st'.capacity ∧ entryCount st' ≤ st'.capacity := by
  obtain ⟨st'', heq, L', hwf⟩ := wf_runOps ops wf
  rw [h] at heq
  cases heq
  refine ⟨rfl, hwf.sizeEq, hwf.sizeLe, ?_⟩
  have hcount : st'.index.length ≤ costSum st' := by
    rw [costSum]
    have := List.length_le_sum_of_one_le (st'.index.map (fun p => (st'.heap p.2).size))
      (fun i hi => by
        obtain ⟨p, hp, he⟩ := List.mem_map.1 hi
        exact he ▸ (hwf.idxMem p hp).2.2.1)
    simpa using this
  calc entryCount st' = st'.index.length := rfl
    _ ≤ costSum st' := hcount
    _ = st'.size := hwf.sizeEq.symm
    _ ≤ st'.capacity := hwf.sizeLe

theorem c2_witness :
    entryCount c2State = c2State.index.length ∧ c2State.size = costSum c2State ∧
      c2State.size ≤ c2State.capacity ∧ entryCount c2State ≤ c2State.capacity :=
  c2_size_accounting Nat Nat (newCache 3) c2State [] false c2Ops (wf_newCache 3) rfl

/-- C8: Every operation sequence preserves well-formedness of the recency
list: the head and tail sentinels keep their boundary links and are never part
of the live chain (never unlinked or evicted), the list is a properly doubly
linked chain from head to tail with mutually consistent next/previous
pointers, and when no entries exist, head.next is the tail sentinel. -/
theorem c8_list_wellformed (K V : Type) [DecidableEq K] [Inhabited K] [Inhabited V]
    (st st' : CacheState K V) (L : List Nat) (pf : Bool) (ops : List (CacheOp K V))
    (wf : WF st L) (h : runOps st pf ops = some st') :
    ∃ L', (st'.heap headId).previous = none ∧ (st'.heap tailId).next = none ∧
      List.Chain' (linkRel st'.heap) (fullChain L') ∧
      (∀ n ∈ L', n ≠ headId ∧ n ≠ tailId) ∧
      (st'.index = [] → (st'.heap headId).next = some tailId) := by
  obtain ⟨st'', heq, L', hwf⟩ := wf_runOps ops wf
  rw [h] at heq
  cases heq
  refine ⟨L', hwf.headPrev, hwf.tailNext, hwf.chain, hwf.chainSent, ?_⟩
  intro hidx
  have hL : L' = [] := by
    cases hcase : L' with
    | nil => rfl
    | cons a t =>
      obtain ⟨k, hk⟩ := hwf.memIdx a (hcase ▸ List.mem_cons_self a t)
      rw [hidx] at hk
      cases hk
  have hchain := hwf.chain
  rw [hL] at hchain
  exact (List.chain'_cons.1 hchain).1.1

theorem c8_witness :
    ∃ L', (c8State.heap headId).previous = none ∧ (c8State.heap tailId).next = none ∧
      List.Chain' (linkRel c8State.heap) (fullChain L') ∧
      (∀ n ∈ L', n ≠ headId ∧ n ≠ tailId) ∧
      (c8State.index = [] → (c8State.heap headId).next = some tailId) :=
  c8_list_wellformed Nat Nat (newCache 4) c8State [] false c8Ops (wf_newCache 4) rfl

/-- C10: From any well-formed state, for an incoming entry with cost at least
1 and at most the capacity, the MakeSpaceFor loop terminates after at most
entryCount evictions (the loop fuel), ending with free space at least the
incoming cost; in the worst case it empties the cache, where size 0 makes the
capacity suffice. -/
theorem c10_makespace_terminates (K V : Type) [DecidableEq K] [Inhabited K] [Inhabited V]
    (st : CacheState K V) (L : List Nat) (n : Nat) (wf : WF st L)
    (h1 : 1 ≤ (st.heap n).size) (hc : (st.heap n).size ≤ st.capacity) :
    ∃ st', makeSpaceLoop (entryCount st) st n = some st' ∧
      (st.heap n).size ≤ u64sub st'.capacity st'.size := by
  have hlen : L.length ≤ entryCount st := le_of_eq wf.length_eq
  obtain ⟨st', L', hloop, hwf', hsf, _, hfree⟩ := wf_makeSpaceLoop (entryCount st) wf hlen hc
  have hsz : (st'.heap n).size = (st.heap n).size := (hsf.data n).2.2.1
  exact ⟨st', hloop, hsz ▸ hfree⟩

theorem c10_witness :
    ∃ st', makeSpaceLoop (entryCount c10Base) c10Base 2 = some st' ∧
      (c10Base.heap 2).size ≤ u64sub st'.capacity st'.size := by
  obtain ⟨st', L', heq, hwf, _⟩ :=
    wf_set (wf_newCache 5 : WF (newCache 5 : CacheState Nat Nat) []) (le_refl _) 1 7 2 none 0 false
      (by decide) (by decide) (by decide)
  have heq0 : setWithSizeAndExpiry 0 (newCache 5) 1 7 2 none 0 false = some (.ok st') := heq
  have hbase : c10Base = st' := by
    unfold c10Base
    rw [heq0]
    rfl
  exact c10_makespace_terminates Nat Nat c10Base (2 :: L') 2 (by rw [hbase]; exact hwf)
    (by decide) (by decide)

/-- C1: The MakeSpaceFor loop evicts from the least-recently-used end exactly
until capacity - size is at least the incoming entry's cost and never removes
more entries than needed: a successful run equals the minimal number of tail
evictions (each performed only while space was still insufficient, stopping as
soon as it suffices).  For the concrete scenario — capacity 10, cost 1 per
item, keys 1..100 inserted sequentially — the final cache holds exactly keys
91..100 with entryCount 10 and size 10. -/
theorem c1_eviction_exactness :
    (∀ (K V : Type) [DecidableEq K] [Inhabited K] [Inhabited V]
      (fuel : Nat) (st st' : CacheState K V) (n : Nat),
      makeSpaceLoop fuel st n = some st' →
      ∃ m, evictIter m st = some st' ∧
        ¬u64sub st'.capacity st'.size < (st'.heap n).size ∧
        ∀ i < m, ∃ sti, evictIter i st = some sti ∧
          u64sub sti.capacity sti.size < (sti.heap n).size) ∧
    (∃ stF, scenarioFinal = some stF ∧
      stF.index.map Prod.fst = [100, 99, 98, 97, 96, 95, 94, 93, 92, 91] ∧
      entryCount stF = 10 ∧ stF.size = 10 ∧
      ∀ k : Nat, (∃ n, idxLookup stF.index k = some n) ↔ (91 ≤ k ∧ k ≤ 100)) := by
  constructor
  · intro K V _ _ _ fuel st st' n h
    exact makeSpaceLoop_minimal fuel h
  · have hconc : scenarioFinal.map (fun s => (s.index.map Prod.fst, s.size, s.index.length))
        = some ([100, 99, 98, 97, 96, 95, 94, 93, 92, 91], 10, 10) := by decide
    cases hsf : scenarioFinal with
    | none => rw [hsf] at hconc; cases hconc
    | some stF =>
      rw [hsf] at hconc
      simp only [Option.map_some', Option.some_inj, Prod.mk.injEq] at hconc
      obtain ⟨hkeys, hsz, hlen⟩ := hconc
      refine ⟨stF, rfl, hkeys, hlen, hsz, ?_⟩
      intro k
      rw [idxLookup_isSome_iff, hkeys]
      simp only [List.mem_cons, List.not_mem_nil, or_false]
      omega

theorem c1_witness :
    ∃ m, evictIter m (newCache 5 : CacheState Nat Nat) = some (newCache 5) ∧
      ¬u64sub (newCache 5 : CacheState Nat Nat).capacity
          (newCache 5 : CacheState Nat Nat).size
          < ((newCache 5 : CacheState Nat Nat).heap 7).size ∧
      ∀ i < m, ∃ sti, evictIter i (newCache 5 : CacheState Nat Nat) = some sti ∧
        u64sub sti.capacity sti.size < (sti.heap 7).size :=
  c1_eviction_exactness.1 Nat Nat 0 (newCache 5) (newCache 5) 7 rfl

/-- C3: A successful set(k, v) — including the case where k already exists,
whose old entry is removed before space is re-evaluated — followed immediately
by get(k) returns (v, true); a set whose expiry was already past is rejected
and never reaches this path, and the sequential semantics has no intervening
delete or eviction. -/
theorem c3_set_get_roundtrip (K V : Type) [DecidableEq K] [Inhabited K] [Inhabited V]
    (st st' : CacheState K V) (L : List Nat) (fuel : Nat) (k : K) (v : V)
    (size0 : Nat) (expires : Option Nat) (now : Nat) (pf : Bool)
    (wf : WF st L) (hfuel : st.index.length ≤ fuel)
    (hset : setWithSizeAndExpiry fuel st k v size0 expires now pf = some (.ok st')) :
    ∃ st'', getOp st' k now = some (st'', v, true) := by
  by_cases h0 : size0 % U64 = 0
  · rw [setF_error_small fuel k v size0 expires now pf h0] at hset
    simp at hset
  · by_cases h1 : st.capacity < size0 % U64
    · rw [setF_error_big fuel k v size0 expires now pf h0 h1] at hset
      simp at hset
    · cases hm : (match expires with | some e => decide (e < now) | none => false) with
      | true =>
        rw [setF_error_expiry fuel k v size0 expires now pf h0 h1 hm] at hset
        simp at hset
      | false =>
        obtain ⟨stw, L', heqw, hwfw, _, _, hlkw, hvalw, hexpw, hszw, hdelw⟩ :=
          wf_set wf hfuel k v size0 expires now pf h0 h1 hm
        rw [heqw] at hset
        have hstw : stw = st' := Except.ok.inj (Option.some.inj hset)
        subst hstw
        have hnx : nodeExpired (stw.heap st.nextId) now = false := by
          cases hexpcase : expires with
          | none =>
            rw [hexpcase] at hexpw
            simp [nodeExpired, hexpw]
          | some e =>
            rw [hexpcase] at hexpw hm
            simp only [] at hm
            simp [nodeExpired, hexpw]
            simpa using hm
        obtain ⟨st'', hstep, l1, l2, hdec, hwf'', _⟩ :=
          wf_touch hwfw (List.mem_cons_self st.nextId L')
        have haf : applyAddToFront stw st.nextId = some st'' := by
          unfold applyAddToFront
          rw [hdelw]
          simpa using hstep
        refine ⟨st'', ?_⟩
        unfold getOp
        rw [hlkw]
        simp [hnx, haf, hvalw]

theorem c3_witness : ∃ st'', getOp c3State 1 0 = some (st'', 42, true) :=
  c3_set_get_roundtrip Nat Nat (newCache 5) c3State [] 0 1 42 1 none 0 false
    (wf_newCache 5) (by decide) rfl

/-- C6: An insertion returns a validation error — with the cache state left
completely unchanged, no state being touched before validation — exactly when
the cost is 0 (item too small), the cost exceeds the constructor-fixed
capacity (item too big), or a provided expiry instant is already past (expiry
in the past); e.g. capacity 5 with cost 6 is rejected as too big and the
cache remains empty. -/
theorem c6_validation_rejects :
    (∀ (K V : Type) [DecidableEq K] [Inhabited K] [Inhabited V]
      (fuel : Nat) (st : CacheState K V) (k : K) (v : V) (size0 : Nat)
      (exp : Option Nat) (now : Nat) (pf : Bool), size0 < U64 →
      ((setWithSizeAndExpiry fuel st k v size0 exp now pf = some (.error .itemTooSmall)) ↔
        size0 = 0) ∧
      ((setWithSizeAndExpiry fuel st k v size0 exp now pf = some (.error .itemTooBig)) ↔
        (¬size0 = 0 ∧ st.capacity < size0)) ∧
      ((setWithSizeAndExpiry fuel st k v size0 exp now pf = some (.error .pastExpiry)) ↔
        (¬size0 = 0 ∧ ¬st.capacity < size0 ∧ ∃ e, exp = some e ∧ e < now)) ∧
      ((∃ err, setWithSizeAndExpiry fuel st k v size0 exp now pf = some (.error err)) ↔
        (size0 = 0 ∨ st.capacity < size0 ∨ ∃ e, exp = some e ∧ e < now))) ∧
    applyOp (newCache 5 : CacheState Nat Nat) false (.set 1 1 6 none 0) = some (newCache 5) ∧
    setWithSizeAndExpiry 0 (newCache 5 : CacheState Nat Nat) 1 1 6 none 0 false =
      some (.error .itemTooBig) ∧
    entryCount (newCache 5 : CacheState Nat Nat) = 0 ∧
    (newCache 5 : CacheState Nat Nat).size = 0 := by
  refine ⟨?_, rfl, rfl, rfl, rfl⟩
  intro K V _ _ _ fuel st k v size0 exp now pf hU
  have hmod : size0 % U64 = size0 := Nat.mod_eq_of_lt hU
  by_cases h0 : size0 = 0
  · have h0' : size0 % U64 = 0 := by rw [hmod]; exact h0
    have hset : setWithSizeAndExpiry fuel st k v size0 exp now pf = some (.error .itemTooSmall) :=
      setF_error_small fuel k v size0 exp now pf h0'
    refine ⟨iff_of_true hset h0, iff_of_false ?_ (fun h => h.1 h0),
      iff_of_false ?_ (fun h => h.1 h0), iff_of_true ⟨.itemTooSmall, hset⟩ (Or.inl h0)⟩
    · intro hs
      rw [hset] at hs
      simp at hs
    · intro hs
      rw [hset] at hs
      simp at hs
  · have h0' : ¬size0 % U64 = 0 := by rw [hmod]; exact h0
    by_cases h1 : st.capacity < size0
    · have h1' : st.capacity < size0 % U64 := by rw [hmod]; exact h1
      have hset := setF_error_big fuel k v size0 exp now pf h0' h1'
      refine ⟨iff_of_false ?_ h0, iff_of_true hset ⟨h0, h1⟩,
        iff_of_false ?_ (fun h => h.2.1 h1), iff_of_true ⟨.itemTooBig, hset⟩
          (Or.inr (Or.inl h1))⟩
      · intro hs
        rw [hset] at hs
        simp at hs
      · intro hs
        rw [hset] at hs
        simp at hs
    · have h1' : ¬st.capacity < size0 % U64 := by rw [hmod]; exact h1
      cases hm : (match exp with | some e => decide (e < now) | none => false) with
      | true =>
        have hset := setF_error_expiry fuel k v size0 exp now pf h0' h1' hm
        have hex : ∃ e, exp = some e ∧ e < now := (expiredCond_true_iff exp now).1 hm
        refine ⟨iff_of_false ?_ h0, iff_of_false ?_ (fun h => h1 h.2),
          iff_of_true hset ⟨h0, h1, hex⟩, iff_of_true ⟨.pastExpiry, hset⟩
            (Or.inr (Or.inr hex))⟩
        · intro hs
          rw [hset] at hs
          simp at hs
        · intro hs
          rw [hset] at hs
          simp at hs
      | false =>
        have hnoerr := setF_no_error fuel k v size0 exp now pf h0' h1' hm
        have hnex : ¬∃ e, exp = some e ∧ e < now := by
          rw [← expiredCond_true_iff exp now]
          simp [hm]
        refine ⟨iff_of_false (hnoerr .itemTooSmall) h0,
          iff_of_false (hnoerr .itemTooBig) (fun h => h1 h.2),
          iff_of_false (hnoerr .pastExpiry) (fun h => hnex h.2.2),
          iff_of_false (fun h => ?_) (fun h => ?_)⟩
        · obtain ⟨err, herr⟩ := h
          exact hnoerr err herr
        · rcases h with h | h | h
          · exact h0 h
          · exact h1 h
          · exact hnex h

theorem c6_witness :
    (setWithSizeAndExpiry 0 (newCache 5 : CacheState Nat Nat) 1 1 6 none 0 false =
        some (.error .itemTooBig)) ↔
      (¬(6 : Nat) = 0 ∧ (newCache 5 : CacheState Nat Nat).capacity < 6) :=
  (c6_validation_rejects.1 Nat Nat 0 (newCache 5) 1 1 6 none 0 false (by decide)).2.1

end LruCache
